import Mathlib

/-!
# AudioConvolutionStudio: the signal-processing core of `cli_processor.cpp`

A shallow embedding of the numeric functions of `src/cli_processor.cpp`
(`pad_zeros`, `fft`, `ifft`, `convolve_fft`, `apply_lowpass_filter`,
`apply_highpass_filter`, `apply_stereo_width`, and the processing chain of
`main`) and theorems about them.

Modelling decisions.

* `double` is an exact ordered field `R` and `std::complex<double>` a field `K`;
  the definitions are polymorphic in both, and the theorems instantiate them at
  `ℝ` and `ℂ`.
* `std::vector<T>` is `List T`.  Vector sizes are natural numbers and are taken
  to fit the C++ `int` that the program stores them in; the one place where the
  integer arithmetic leaves that range, `x.size() + h.size() - 1` at two empty
  vectors, is modelled with the value `-1` that the program computes.
* An operation that throws is `none`.
* Where a claim depends on the rounding of `double` arithmetic, the `_rounded`
  definitions carry a rounding function through the same loops, and
  `round_binary64` is the IEEE 754 rounding to nearest, ties to even.
-/

namespace AudioConvolution

/-- The services the program takes from `<complex>` and from FFTW's twiddle
factors: the conversion `std::complex<double>(double)`, the accessor `.real()`,
and, for each transform size `n`, the base `e^{-2πi/n}` of the forward
transform. -/
structure StdComplex (R K : Type) where
  ofReal : R → K
  real : K → R
  twiddle : ℕ → K

/-- The instance at the real and complex numbers. -/
noncomputable def realComplex : StdComplex ℝ ℂ where
  ofReal := Complex.ofReal
  real := Complex.re
  twiddle := fun n => Complex.exp (-(2 * (Real.pi : ℂ) * Complex.I / (n : ℂ)))

section Core

variable {R K : Type} [LinearOrderedField R] [Field K]

/-- `pad_zeros(x, n)`: `while (x.size() < n) x.push_back(0)`.
The comparison is made in `size_t`.  For `0 ≤ n` the loop appends
`n - x.size()` zeros (none when the vector is already that long).  A negative
`n` converts to a `size_t` of at least `2^64 - 2^31`, which no vector can
reach: the loop keeps appending until `push_back` throws. -/
def pad_zeros (x : List R) (n : Int) : Option (List R) :=
  if n < 0 then none
  else some (x ++ List.replicate (n.toNat - x.length) 0)

/-- Modelled from the spec: the FFTW kernel `fftw_plan_dft_1d` followed by
`fftw_execute` is a library call whose code is not in the repository; per the
spec it is the "unnormalized DFT (no 1/N scaling)" that "accepts any N":
`out[k] = Σ_j in[j] · root^(j·k)`, where `root` is `e^{-2πi/N}` for
`FFTW_FORWARD` and `e^{+2πi/N}` for `FFTW_BACKWARD`. -/
def fftw_execute (root : K) (inp : List K) : List K :=
  (List.range inp.length).map fun k =>
    ((List.range inp.length).map fun j => inp.getD j 0 * root ^ (j * k)).sum

/-- `fft(x)`: copy `x` into the FFTW input buffer, run the forward plan of size
`x.size()`, copy the output buffer back. -/
def fft (twiddle : ℕ → K) (x : List K) : List K :=
  fftw_execute (twiddle x.length) x

/-- `ifft(x)`: as `fft` with the backward plan, every output element divided by
`x.size()`. -/
def ifft (twiddle : ℕ → K) (x : List K) : List K :=
  (fftw_execute (twiddle x.length)⁻¹ x).map fun o => o / (x.length : K)

/-- `convolve_fft(x, h)`. -/
def convolve_fft (C : StdComplex R K) (x h : List R) : Option (List R) := do
  let n : Int := (x.length : Int) + (h.length : Int) - 1
  let x ← pad_zeros x n
  let h ← pad_zeros h n
  let X := fft C.twiddle (x.map C.ofReal)
  let H := fft C.twiddle (h.map C.ofReal)
  let Y := (List.range n.toNat).map fun i => X.getD i 0 * H.getD i 0
  let Y := ifft C.twiddle Y
  pure ((List.range n.toNat).map fun i => C.real (Y.getD i 0))

/-- `apply_lowpass_filter(signal, cutoffFreq, sampleRate)`. -/
def apply_lowpass_filter (C : StdComplex R K) (signal : List R) (cutoffFreq : R)
    (sampleRate : Int) : List R :=
  let n := signal.length
  let X := fft C.twiddle (signal.map C.ofReal)
  let X := (List.range n).map fun (i : ℕ) =>
    if ((i : R) * (sampleRate : R) / (n : R)) > cutoffFreq then 0 else X.getD i 0
  let X := ifft C.twiddle X
  (List.range n).map fun i => C.real (X.getD i 0)

/-- `apply_highpass_filter(signal, cutoffFreq, sampleRate)`. -/
def apply_highpass_filter (C : StdComplex R K) (signal : List R) (cutoffFreq : R)
    (sampleRate : Int) : List R :=
  let n := signal.length
  let X := fft C.twiddle (signal.map C.ofReal)
  let X := (List.range n).map fun (i : ℕ) =>
    if ((i : R) * (sampleRate : R) / (n : R)) < cutoffFreq then 0 else X.getD i 0
  let X := ifft C.twiddle X
  (List.range n).map fun i => C.real (X.getD i 0)

/-- `apply_stereo_width(left, right, width)`: the loop runs over the indices
below both sizes and rewrites `left[i]`, `right[i]` in place; the pair of
vectors after the call is returned. -/
def apply_stereo_width : List R → List R → R → List R × List R
  | l :: left, r :: right, width =>
    let widthRatio := width / 100
    let mid := (l + r) / 2
    let side := (l - r) / 2
    let side := side * widthRatio
    let rest := apply_stereo_width left right width
    ((mid + side) :: rest.1, (mid - side) :: rest.2)
  | left, right, _ => (left, right)

/-- Linear convolution in the spec's words: for `k < N1 + N2 - 1`,
`y[k] = Σ x[j]·h[k-j]` over the `j` with `0 ≤ j < N1` and `0 ≤ k - j < N2`. -/
def linear_convolution (x h : List R) : List R :=
  (List.range (x.length + h.length - 1)).map fun k =>
    ((List.range x.length).map fun j =>
      if j ≤ k ∧ k - j < h.length then x.getD j 0 * h.getD (k - j) 0 else 0).sum

/-- The gain loops of `main`: `gainLinear = std::pow(10.0, gain / 20.0)` and
`sample *= gainLinear` for every sample.  `pow` is `std::pow`. -/
def apply_gain (pow : R → R → R) (gain : R) (signal : List R) : List R :=
  let gainLinear := pow 10 (gain / 20)
  signal.map fun sample => sample * gainLinear

/-- The left channel of an interleaved stereo buffer, `left[i] = signal[2 * i]`
for `i < frames`; the buffer holds `frames * 2` samples. -/
def channel_left (signal : List R) : List R :=
  (List.range (signal.length / 2)).map fun i => signal.getD (2 * i) 0

/-- The right channel of an interleaved stereo buffer,
`right[i] = signal[2 * i + 1]` for `i < frames`. -/
def channel_right (signal : List R) : List R :=
  (List.range (signal.length / 2)).map fun i => signal.getD (2 * i + 1) 0

/-- The dry/wet loop of `main`.  It runs over `i < leftOutput.size()` and
rewrites `leftOutput[i]` and `rightOutput[i]`; the dry sample is `left1[i]`
(`right1[i]`) inside the dry vector and `0.0` past its end.  In `main` the two
output vectors have the same size. -/
def dry_wet_mix (left1 right1 leftOutput rightOutput : List R) (dryWet : R) :
    List R × List R :=
  let wetRatio := dryWet / 100
  let dryRatio := 1 - wetRatio
  ((List.range leftOutput.length).map fun i =>
      (if i < left1.length then left1.getD i 0 else 0) * dryRatio
        + leftOutput.getD i 0 * wetRatio,
   (List.range rightOutput.length).map fun i =>
      if i < leftOutput.length then
        (if i < right1.length then right1.getD i 0 else 0) * dryRatio
          + rightOutput.getD i 0 * wetRatio
      else rightOutput.getD i 0)

/-- `*std::max_element(first, last, comp)` with `comp(a, b) = |a| < |b|`: the
scan keeps the current largest element and replaces it only by a later element
of strictly greater magnitude, so it yields the first element of greatest
magnitude.  On an empty vector the call dereferences `end()`. -/
def max_element_abs : List R → Option R
  | [] => none
  | a :: rest => some (rest.foldl (fun largest s => if |largest| < |s| then s else largest) a)

/-- The normalization block of `main` for one channel: when the magnitude of
`max_val` exceeds `1.0`, every sample is divided by `max_val`. -/
def normalize_channel (output : List R) : Option (List R) := do
  let max_val ← max_element_abs output
  if |max_val| > 1 then pure (output.map fun sample => sample / max_val)
  else pure output

/-- The interleave loop of `main`: `outputSignal[2 * i] = leftOutput[i]` and
`outputSignal[2 * i + 1] = rightOutput[i]` for `i < leftOutput.size()`. -/
def interleave (leftOutput rightOutput : List R) : List R :=
  (List.range (leftOutput.length * 2)).map fun k =>
    if k % 2 = 0 then leftOutput.getD (k / 2) 0 else rightOutput.getD (k / 2) 0

/-- The settings of a run. -/
structure EffectSettings (R : Type) where
  dryWet : R
  inputGain : R
  outputGain : R
  impulseGain : R
  lowPassFreq : R
  highPassFreq : R
  stereoWidth : R
  normalize : Bool

/-- The processing chain of `main`, from the two decoded interleaved stereo
buffers to the interleaved output buffer. -/
def process (C : StdComplex R K) (pow : R → R → R) (st : EffectSettings R) (sampleRate : Int)
    (signal1 signal2 : List R) : Option (List R) := do
  let signal1 := apply_gain pow st.inputGain signal1
  let signal2 := apply_gain pow st.impulseGain signal2
  let left1 := channel_left signal1
  let right1 := channel_right signal1
  let left2 := channel_left signal2
  let right2 := channel_right signal2
  let leftOutput ← convolve_fft C left1 left2
  let rightOutput ← convolve_fft C right1 right2
  let leftLow :=
    if st.lowPassFreq < 20000 then apply_lowpass_filter C leftOutput st.lowPassFreq sampleRate
    else leftOutput
  let rightLow :=
    if st.lowPassFreq < 20000 then apply_lowpass_filter C rightOutput st.lowPassFreq sampleRate
    else rightOutput
  let leftHigh :=
    if st.highPassFreq > 20 then apply_highpass_filter C leftLow st.highPassFreq sampleRate
    else leftLow
  let rightHigh :=
    if st.highPassFreq > 20 then apply_highpass_filter C rightLow st.highPassFreq sampleRate
    else rightLow
  let widened :=
    if st.stereoWidth ≠ 100 then apply_stereo_width leftHigh rightHigh st.stereoWidth
    else (leftHigh, rightHigh)
  let mixed := dry_wet_mix left1 right1 widened.1 widened.2 st.dryWet
  let leftGained := apply_gain pow st.outputGain mixed.1
  let rightGained := apply_gain pow st.outputGain mixed.2
  let leftFinal ← if st.normalize then normalize_channel leftGained else pure leftGained
  let rightFinal ← if st.normalize then normalize_channel rightGained else pure rightGained
  pure (interleave leftFinal rightFinal)

/-- What follows the convolution for one channel when the width step is
skipped: the two filters, the dry/wet mix against the channel's own dry signal,
the output gain and the normalization. -/
def channel_post (C : StdComplex R K) (pow : R → R → R) (st : EffectSettings R)
    (sampleRate : Int) (dry output : List R) : Option (List R) :=
  let low :=
    if st.lowPassFreq < 20000 then apply_lowpass_filter C output st.lowPassFreq sampleRate
    else output
  let high :=
    if st.highPassFreq > 20 then apply_highpass_filter C low st.highPassFreq sampleRate
    else low
  let mixed := (dry_wet_mix dry dry high high st.dryWet).1
  let gained := apply_gain pow st.outputGain mixed
  if st.normalize then normalize_channel gained else pure gained

/-! ### The same loops with rounded arithmetic

The definitions above read every `double` operation as the exact operation of
the field.  The definitions below take a rounding function `fl` and apply it to
the result of every arithmetic operation that the source performs on `double`s;
with `fl = id` they are the definitions above, and with `fl = round_binary64`
they follow the IEEE 754 `double` arithmetic of the code. -/

/-- `apply_stereo_width` with the result of every operation rounded by `fl`. -/
def apply_stereo_width_rounded (fl : R → R) : List R → List R → R → List R × List R
  | l :: left, r :: right, width =>
    let widthRatio := fl (width / 100)
    let mid := fl (fl (l + r) / 2)
    let side := fl (fl (l - r) / 2)
    let side := fl (side * widthRatio)
    let rest := apply_stereo_width_rounded fl left right width
    (fl (mid + side) :: rest.1, fl (mid - side) :: rest.2)
  | left, right, _ => (left, right)

/-- The gain loop with rounded arithmetic: `gain / 20.0`, the value of
`std::pow` and every product are rounded by `fl`; `pow` is the exact power, so
`std::pow` is taken to return the `double` nearest to the exact power. -/
def apply_gain_rounded (fl : R → R) (pow : R → R → R) (gain : R) (signal : List R) : List R :=
  let gainLinear := fl (pow 10 (fl (gain / 20)))
  signal.map fun sample => fl (sample * gainLinear)

/-- `apply_lowpass_filter` with the arithmetic of the source rounded by `fl`:
the bin frequency `(double)i * sampleRate / n` is a rounded product and a
rounded quotient, and the division by `x.size()` in `ifft`, whose real part is
the returned sample, is rounded.  The FFTW kernel stays the exact transform. -/
def apply_lowpass_filter_rounded (fl : R → R) (C : StdComplex R K) (signal : List R)
    (cutoffFreq : R) (sampleRate : Int) : List R :=
  let n := signal.length
  let X := fft C.twiddle (signal.map C.ofReal)
  let X := (List.range n).map fun (i : ℕ) =>
    if fl (fl ((i : R) * (sampleRate : R)) / (n : R)) > cutoffFreq then 0 else X.getD i 0
  let X := ifft C.twiddle X
  (List.range n).map fun i => fl (C.real (X.getD i 0))

/-- `apply_highpass_filter` with the arithmetic of the source rounded by `fl`,
as for the low-pass filter. -/
def apply_highpass_filter_rounded (fl : R → R) (C : StdComplex R K) (signal : List R)
    (cutoffFreq : R) (sampleRate : Int) : List R :=
  let n := signal.length
  let X := fft C.twiddle (signal.map C.ofReal)
  let X := (List.range n).map fun (i : ℕ) =>
    if fl (fl ((i : R) * (sampleRate : R)) / (n : R)) < cutoffFreq then 0 else X.getD i 0
  let X := ifft C.twiddle X
  (List.range n).map fun i => fl (C.real (X.getD i 0))

end Core

section Binary64

variable {R : Type} [LinearOrderedField R] [FloorRing R]

/-- Rounding to the nearest integer, ties to the even one. -/
def round_half_even (y : R) : ℤ :=
  let f := ⌊y⌋
  if y - f < 1 / 2 then f
  else if 1 / 2 < y - f then f + 1
  else if f % 2 = 0 then f else f + 1

/-- IEEE 754 binary64 rounding, to nearest with ties to even: a non-zero `x`
with `2^e ≤ |x| < 2^(e+1)` is rounded to the nearest multiple of `2^(e-52)`, a
53-bit significand; below `2^-1022` the spacing stays `2^-1074` (subnormal
numbers).  Overflow to infinity is not modelled. -/
def round_binary64 (x : R) : R :=
  if x = 0 then 0
  else
    let e := max (Int.log 2 |x|) (-1022)
    (round_half_even (x / (2 : R) ^ (e - 52)) : R) * (2 : R) ^ (e - 52)

end Binary64

/-! ## Sums over index ranges and roots of unity -/

section
variable {K : Type} [Field K]

theorem sum_map_range {M : Type} [AddCommMonoid M] (f : ℕ → M) (n : ℕ) :
    ((List.range n).map f).sum = ∑ i in Finset.range n, f i := by
  induction n with
  | zero => simp
  | succ n ih => rw [List.sum_range_succ, Finset.sum_range_succ, ih]

theorem getD_map_range {α : Type} (f : ℕ → α) (d : α) {k n : ℕ} (hk : k < n) :
    ((List.range n).map f).getD k d = f k := by
  simp [List.getD_eq_getElem?_getD, hk]

theorem root_orthogonality {ζ : K} {n : ℕ} (hζ : IsPrimitiveRoot ζ n) (c : ℕ) {m : ℕ}
    (hm : m < n) :
    ∑ k in Finset.range n, ζ ^ (c * k) * ζ⁻¹ ^ (k * m) = if c % n = m then (n : K) else 0 := by
  have hn : 0 < n := by omega
  have hz : ζ ≠ 0 := hζ.ne_zero hn.ne'
  have hterm : ∀ k, ζ ^ (c * k) * ζ⁻¹ ^ (k * m) = (ζ ^ c * ζ⁻¹ ^ m) ^ k := by
    intro k
    rw [mul_pow, ← pow_mul, ← pow_mul, mul_comm k m]
  simp only [hterm]
  have hcm : ζ ^ c = ζ ^ (c % n) := pow_eq_pow_mod c hζ.pow_eq_one
  split_ifs with h
  · have : ζ ^ c * ζ⁻¹ ^ m = 1 := by
      rw [hcm, h, ← mul_pow, mul_inv_cancel₀ hz, one_pow]
    rw [this]; simp
  · have hr : ζ ^ c * ζ⁻¹ ^ m ≠ 1 := by
      intro hr
      apply h
      have h2 : ζ ^ (c % n) = ζ ^ m := by
        rw [← hcm]
        have := congrArg (· * ζ ^ m) hr
        simp only [one_mul] at this
        rw [mul_assoc, ← mul_pow, inv_mul_cancel₀ hz, one_pow, mul_one] at this
        exact this
      exact hζ.pow_inj (Nat.mod_lt _ hn) hm h2
    have hrn : (ζ ^ c * ζ⁻¹ ^ m) ^ n = 1 := by
      rw [mul_pow, ← pow_mul, ← pow_mul, mul_comm c n, mul_comm m n, pow_mul, pow_mul,
        hζ.pow_eq_one, inv_pow, hζ.pow_eq_one]
      simp
    rw [geom_sum_eq hr, hrn]
    simp

end

section
variable {K : Type} [Field K]

theorem dft_inversion_sum {ζ : K} {n : ℕ} (hζ : IsPrimitiveRoot ζ n) (f : ℕ → K) {m : ℕ}
    (hm : m < n) :
    ∑ k in Finset.range n, (∑ j in Finset.range n, f j * ζ ^ (j * k)) * ζ⁻¹ ^ (k * m)
      = (n : K) * f m := by
  simp only [Finset.sum_mul]
  rw [Finset.sum_comm]
  have inner : ∀ j ∈ Finset.range n,
      ∑ k in Finset.range n, f j * ζ ^ (j * k) * ζ⁻¹ ^ (k * m)
        = if j = m then (n : K) * f m else 0 := by
    intro j hj
    have hj' : j % n = j := Nat.mod_eq_of_lt (Finset.mem_range.mp hj)
    simp only [mul_assoc, ← Finset.mul_sum, root_orthogonality hζ j hm, hj']
    split_ifs with h
    · rw [h, mul_comm]
    · simp
  rw [Finset.sum_congr rfl inner, Finset.sum_ite_eq' (Finset.range n) m]
  simp [hm]

theorem dft_convolution_sum {ζ : K} {n : ℕ} (hζ : IsPrimitiveRoot ζ n) (f g : ℕ → K) {m : ℕ}
    (hm : m < n) :
    ∑ k in Finset.range n,
        ((∑ a in Finset.range n, f a * ζ ^ (a * k)) * (∑ b in Finset.range n, g b * ζ ^ (b * k)))
          * ζ⁻¹ ^ (k * m)
      = (n : K) * ∑ a in Finset.range n, ∑ b in Finset.range n,
          if (a + b) % n = m then f a * g b else 0 := by
  have hterm : ∀ a b k, f a * ζ ^ (a * k) * (g b * ζ ^ (b * k)) * ζ⁻¹ ^ (k * m)
      = (f a * g b) * (ζ ^ ((a + b) * k) * ζ⁻¹ ^ (k * m)) := by
    intro a b k
    rw [add_mul, pow_add]
    ring
  have step : ∀ k ∈ Finset.range n,
      ((∑ a in Finset.range n, f a * ζ ^ (a * k)) * (∑ b in Finset.range n, g b * ζ ^ (b * k)))
          * ζ⁻¹ ^ (k * m)
        = ∑ a in Finset.range n, ∑ b in Finset.range n,
            (f a * g b) * (ζ ^ ((a + b) * k) * ζ⁻¹ ^ (k * m)) := by
    intro k _
    rw [Finset.sum_mul_sum, Finset.sum_mul]
    refine Finset.sum_congr rfl fun a _ => ?_
    rw [Finset.sum_mul]
    exact Finset.sum_congr rfl fun b _ => hterm a b k
  rw [Finset.sum_congr rfl step, Finset.sum_comm, Finset.mul_sum]
  refine Finset.sum_congr rfl fun a _ => ?_
  rw [Finset.sum_comm, Finset.mul_sum]
  refine Finset.sum_congr rfl fun b _ => ?_
  rw [← Finset.mul_sum, root_orthogonality hζ (a + b) hm]
  split_ifs with h
  · ring
  · simp

end

/-! ## The transforms on lists -/

section
variable {K : Type} [Field K]

theorem list_ext_getD {α : Type} (d : α) {l₁ l₂ : List α} (hlen : l₁.length = l₂.length)
    (h : ∀ k, k < l₁.length → l₁.getD k d = l₂.getD k d) : l₁ = l₂ := by
  apply List.ext_getElem hlen
  intro k h1 h2
  have := h k h1
  simpa [List.getD_eq_getElem?_getD, h1, h2] using this

@[simp]
theorem fftw_execute_length (root : K) (inp : List K) :
    (fftw_execute root inp).length = inp.length := by
  simp [fftw_execute]

@[simp]
theorem fft_length (w : ℕ → K) (x : List K) : (fft w x).length = x.length := by
  simp [fft]

@[simp]
theorem ifft_length (w : ℕ → K) (x : List K) : (ifft w x).length = x.length := by
  simp [ifft]

theorem fftw_execute_getD (root : K) (inp : List K) {k : ℕ} (hk : k < inp.length) :
    (fftw_execute root inp).getD k 0
      = ∑ j in Finset.range inp.length, inp.getD j 0 * root ^ (j * k) := by
  rw [fftw_execute, getD_map_range _ _ hk, sum_map_range]

theorem fft_getD (w : ℕ → K) (x : List K) {k : ℕ} (hk : k < x.length) :
    (fft w x).getD k 0 = ∑ j in Finset.range x.length, x.getD j 0 * w x.length ^ (j * k) :=
  fftw_execute_getD _ _ hk

theorem ifft_getD (w : ℕ → K) (x : List K) {m : ℕ} (hm : m < x.length) :
    (ifft w x).getD m 0
      = (∑ k in Finset.range x.length, x.getD k 0 * (w x.length)⁻¹ ^ (k * m)) / (x.length : K) := by
  have h1 : m < (fftw_execute (w x.length)⁻¹ x).length := by simpa using hm
  rw [ifft, List.getD_eq_getElem _ _ (by simpa using h1), List.getElem_map,
    ← List.getD_eq_getElem _ 0 h1, fftw_execute_getD _ _ hm]

theorem ifft_fft_of_primitive [CharZero K] (w : ℕ → K)
    (hw : ∀ n, 0 < n → IsPrimitiveRoot (w n) n) (x : List K) :
    ifft w (fft w x) = x := by
  apply list_ext_getD 0 (by simp)
  intro m hm
  have hm' : m < x.length := by simpa using hm
  have hn : 0 < x.length := by omega
  have hm2 : m < (fft w x).length := by simpa using hm'
  rw [ifft_getD _ _ hm2, fft_length]
  have hsum : ∑ k in Finset.range x.length, (fft w x).getD k 0 * (w x.length)⁻¹ ^ (k * m)
      = ∑ k in Finset.range x.length,
          (∑ j in Finset.range x.length, x.getD j 0 * w x.length ^ (j * k))
            * (w x.length)⁻¹ ^ (k * m) :=
    Finset.sum_congr rfl fun k hk => by rw [fft_getD _ _ (Finset.mem_range.mp hk)]
  rw [hsum, dft_inversion_sum (hw _ hn) _ hm']
  have : (x.length : K) ≠ 0 := by exact_mod_cast hn.ne'
  field_simp

end

/-! ## Real and complex numbers -/

theorem realComplex_twiddle_primitive (n : ℕ) (hn : 0 < n) :
    IsPrimitiveRoot (realComplex.twiddle n) n := by
  have h := (Complex.isPrimitiveRoot_exp n hn.ne').inv
  have e : realComplex.twiddle n = (Complex.exp (2 * (Real.pi : ℂ) * Complex.I / (n : ℂ)))⁻¹ := by
    simp only [realComplex, Complex.exp_neg]
  rw [e]
  exact h

theorem getD_map_ofReal (l : List ℝ) (k : ℕ) :
    (l.map realComplex.ofReal).getD k 0 = ((l.getD k 0 : ℝ) : ℂ) := by
  simp only [realComplex, List.getD_eq_getElem?_getD, List.getElem?_map]
  cases l[k]? <;> simp

theorem getD_append_replicate_zero {α : Type} [Zero α] (l : List α) (p k : ℕ) :
    (l ++ List.replicate p 0).getD k 0 = l.getD k 0 := by
  simp only [List.getD_eq_getElem?_getD]
  by_cases h : k < l.length
  · rw [List.getElem?_append_left h]
  · rw [List.getElem?_append_right (by omega), List.getElem?_eq_none (l := l) (by omega)]
    simp only [List.getElem?_replicate]
    split_ifs <;> simp

theorem getD_zero_of_le {α : Type} [Zero α] (l : List α) {k : ℕ} (h : l.length ≤ k) :
    l.getD k 0 = 0 := by
  simp [List.getD_eq_getElem?_getD, List.getElem?_eq_none h]

theorem conv_index_sum {R : Type} [Field R] (x h : List R) {m : ℕ}
    (hh : 0 < h.length) (hm : m < x.length + h.length - 1) :
    ∑ a in Finset.range (x.length + h.length - 1),
        ∑ b in Finset.range (x.length + h.length - 1),
          (if (a + b) % (x.length + h.length - 1) = m then x.getD a 0 * h.getD b 0 else 0)
      = ∑ j in Finset.range x.length,
          if j ≤ m ∧ m - j < h.length then x.getD j 0 * h.getD (m - j) 0 else 0 := by
  have hsub : Finset.range x.length ⊆ Finset.range (x.length + h.length - 1) :=
    Finset.range_subset.2 (by omega)
  rw [← Finset.sum_subset hsub]
  · refine Finset.sum_congr rfl fun a ha => ?_
    have ha' : a < x.length := Finset.mem_range.mp ha
    split_ifs with hc
    · rw [Finset.sum_eq_single (m - a)]
      · have : (a + (m - a)) % (x.length + h.length - 1) = m := by
          rw [Nat.mod_eq_of_lt (by omega)]; omega
        rw [if_pos this]
      · intro b hb hne
        have hb' := Finset.mem_range.mp hb
        by_cases hbh : b < h.length
        · have : (a + b) % (x.length + h.length - 1) = a + b := Nat.mod_eq_of_lt (by omega)
          rw [this, if_neg (by omega)]
        · rw [getD_zero_of_le h (by omega)]; simp
      · intro hnot
        exact absurd (Finset.mem_range.mpr (by omega)) hnot
    · apply Finset.sum_eq_zero
      intro b hb
      by_cases hbh : b < h.length
      · have : (a + b) % (x.length + h.length - 1) = a + b := Nat.mod_eq_of_lt (by omega)
        rw [this, if_neg (by omega)]
      · rw [getD_zero_of_le h (by omega)]; simp
  · intro a _ ha
    have : x.length ≤ a := by simpa using ha
    apply Finset.sum_eq_zero
    intro b _
    rw [getD_zero_of_le x this]; simp

/-! ## `convolve_fft` computes the linear convolution -/

theorem fft_padded_getD (x : List ℝ) {L k : ℕ} (hL : x.length ≤ L) (hk : k < L) :
    (fft realComplex.twiddle
        ((x ++ List.replicate (L - x.length) 0).map realComplex.ofReal)).getD k 0
      = ∑ a in Finset.range L, ((x.getD a 0 : ℝ) : ℂ) * realComplex.twiddle L ^ (a * k) := by
  have hlen : ((x ++ List.replicate (L - x.length) 0).map realComplex.ofReal).length = L := by
    simp; omega
  rw [fft_getD _ _ (by rw [hlen]; exact hk), hlen]
  refine Finset.sum_congr rfl fun a _ => ?_
  rw [getD_map_ofReal, getD_append_replicate_zero]

theorem convolve_fft_eq_linear_convolution (x h : List ℝ) (hx : x ≠ []) (hh : h ≠ []) :
    convolve_fft realComplex x h = some (linear_convolution x h) := by
  have hx0 : 0 < x.length := List.length_pos.mpr hx
  have hh0 : 0 < h.length := List.length_pos.mpr hh
  obtain ⟨L, hLdef⟩ : ∃ L, L = x.length + h.length - 1 := ⟨_, rfl⟩
  have hL0 : 0 < L := by omega
  have hn : ((x.length : Int) + (h.length : Int) - 1) = (L : Int) := by omega
  have hζ := realComplex_twiddle_primitive L hL0
  have hLne : (L : ℂ) ≠ 0 := by exact_mod_cast hL0.ne'
  simp only [convolve_fft, hn, pad_zeros, Int.toNat_ofNat, Option.pure_def, Option.bind_eq_bind]
  rw [if_neg (by omega), if_neg (by omega)]
  simp only [Option.some_bind, Option.some.injEq, linear_convolution, ← hLdef]
  apply List.map_congr_left
  intro m hm
  have hm' : m < L := List.mem_range.mp hm
  set Y : List ℂ := (List.range L).map fun i =>
    (fft realComplex.twiddle
        ((x ++ List.replicate (L - x.length) 0).map realComplex.ofReal)).getD i 0
      * (fft realComplex.twiddle
        ((h ++ List.replicate (L - h.length) 0).map realComplex.ofReal)).getD i 0 with hY
  have hYlen : Y.length = L := by simp [hY]
  rw [ifft_getD _ _ (by rw [hYlen]; exact hm'), hYlen]
  have hsum : ∑ k in Finset.range L, Y.getD k 0 * (realComplex.twiddle L)⁻¹ ^ (k * m)
      = ∑ k in Finset.range L,
          ((∑ a in Finset.range L, ((x.getD a 0 : ℝ) : ℂ) * realComplex.twiddle L ^ (a * k))
            * (∑ b in Finset.range L, ((h.getD b 0 : ℝ) : ℂ) * realComplex.twiddle L ^ (b * k)))
          * (realComplex.twiddle L)⁻¹ ^ (k * m) := by
    refine Finset.sum_congr rfl fun k hk => ?_
    have hk' : k < L := Finset.mem_range.mp hk
    rw [hY, getD_map_range _ _ hk', fft_padded_getD x (by omega) hk',
      fft_padded_getD h (by omega) hk']
  rw [hsum, dft_convolution_sum hζ _ _ hm', mul_div_cancel_left₀ _ hLne, sum_map_range]
  have hcast : (∑ a in Finset.range L, ∑ b in Finset.range L,
        if (a + b) % L = m then ((x.getD a 0 : ℝ) : ℂ) * ((h.getD b 0 : ℝ) : ℂ) else 0)
      = ((∑ a in Finset.range L, ∑ b in Finset.range L,
        if (a + b) % L = m then x.getD a 0 * h.getD b 0 else 0 : ℝ) : ℂ) := by
    push_cast
    refine Finset.sum_congr rfl fun a _ => Finset.sum_congr rfl fun b _ => ?_
    split_ifs <;> simp
  rw [hcast]
  have := conv_index_sum x h hh0 (m := m) (by omega)
  rw [← hLdef] at this
  simp only [realComplex, Complex.ofReal_re]
  exact this

theorem linear_convolution_length {R : Type} [LinearOrderedField R] (x h : List R) :
    (linear_convolution x h).length = x.length + h.length - 1 := by
  simp [linear_convolution]

theorem linear_convolution_getD {R : Type} [LinearOrderedField R] (x h : List R) {k : ℕ}
    (hk : k < x.length + h.length - 1) :
    (linear_convolution x h).getD k 0
      = ∑ j in Finset.range x.length,
          if j ≤ k ∧ k - j < h.length then x.getD j 0 * h.getD (k - j) 0 else 0 := by
  rw [linear_convolution, getD_map_range _ _ hk, sum_map_range]

/-- C1: for non-empty real sequences `x` (length `N1`) and `h` (length `N2`),
`convolve_fft x h` returns a sequence `y` of length `N1 + N2 - 1` whose entry
`k` is the sum of `x[j] * h[k - j]` over the `j < N1` with `0 ≤ k - j < N2`:
the linear, non-circular convolution. -/
theorem convolve_fft_is_linear_convolution (x h : List ℝ) (hx : x ≠ []) (hh : h ≠ []) :
    ∃ y, convolve_fft realComplex x h = some y ∧ y.length = x.length + h.length - 1 ∧
      ∀ k, k < x.length + h.length - 1 →
        y.getD k 0
          = ∑ j in (Finset.range x.length).filter (fun j => j ≤ k ∧ k - j < h.length),
              x.getD j 0 * h.getD (k - j) 0 := by
  refine ⟨linear_convolution x h, convolve_fft_eq_linear_convolution x h hx hh,
    linear_convolution_length x h, fun k hk => ?_⟩
  rw [linear_convolution_getD x h hk, Finset.sum_filter]

/-- The scenario of C1: the dry signal `[1, 0, 0]` and impulse response
`[0.5, 0.5]` give `[0.5, 0.5, 0, 0]`. -/
theorem convolve_fft_is_linear_convolution_witness :
    ([1, 0, 0] : List ℝ) ≠ [] ∧ ([1/2, 1/2] : List ℝ) ≠ [] ∧
      convolve_fft realComplex [1, 0, 0] [1/2, 1/2] = some [1/2, 1/2, 0, 0] := by
  refine ⟨by simp, by simp, ?_⟩
  obtain ⟨y, hy, hlen, hval⟩ :=
    convolve_fft_is_linear_convolution [1, 0, 0] [1/2, 1/2] (by simp) (by simp)
  rw [hy]
  congr 1
  apply list_ext_getD 0 (by simpa using hlen)
  intro k hk
  have hk4 : k < 4 := by simpa [hlen] using hk
  rw [hval k (by simpa using hk4)]
  interval_cases k <;> simp [Finset.sum_filter, Finset.sum_range_succ]

/-- When at least one input is non-empty, `n = N1 + N2 - 1` is not negative,
both paddings succeed and the result has `N1 + N2 - 1` entries. -/
theorem convolve_fft_length {R K : Type} [LinearOrderedField R] [Field K] (C : StdComplex R K)
    (x h : List R) (hne : x ≠ [] ∨ h ≠ []) :
    ∃ y, convolve_fft C x h = some y ∧ y.length = x.length + h.length - 1 := by
  have hpos : 0 < x.length + h.length := by
    rcases hne with hx | hh
    · have := List.length_pos.mpr hx; omega
    · have := List.length_pos.mpr hh; omega
  obtain ⟨L, hLdef⟩ : ∃ L, L = x.length + h.length - 1 := ⟨_, rfl⟩
  have hn : ((x.length : Int) + (h.length : Int) - 1) = (L : Int) := by omega
  simp only [convolve_fft, hn, pad_zeros, Int.toNat_ofNat, Option.pure_def, Option.bind_eq_bind]
  rw [if_neg (by omega), if_neg (by omega)]
  simp [← hLdef]

/-- C2, at the failing input: with both inputs empty, `n` is `-1`, `pad_zeros`
throws, and `convolve_fft` returns no sequence (not the empty one). -/
theorem convolve_fft_nil_nil_fails : convolve_fft realComplex [] [] = none := by
  simp [convolve_fft, pad_zeros]

/-- C3: for every complex buffer `x`, of any length, the backward transform
divided by the length undoes the forward transform: `ifft (fft x) = x`. -/
theorem ifft_fft_roundtrip (x : List ℂ) :
    ifft realComplex.twiddle (fft realComplex.twiddle x) = x :=
  ifft_fft_of_primitive _ realComplex_twiddle_primitive x

theorem linear_convolution_unit {R : Type} [LinearOrderedField R] (x : List R) :
    linear_convolution x [1] = x := by
  apply list_ext_getD 0 (by simp [linear_convolution_length])
  intro k hk
  have hk' : k < x.length := by simpa [linear_convolution_length] using hk
  rw [linear_convolution_getD x [1] (by simpa using hk'), Finset.sum_eq_single k]
  · simp
  · intro j _ hne
    rw [if_neg]
    simp only [List.length_singleton, Nat.lt_one_iff]
    omega
  · intro hnot
    exact absurd (Finset.mem_range.mpr hk') hnot

theorem getD_zipWith_lincomb {R : Type} [LinearOrderedField R] (a b : R) (x1 x2 : List R)
    (hlen : x2.length = x1.length) (k : ℕ) :
    (List.zipWith (fun u v => a * u + b * v) x1 x2).getD k 0
      = a * x1.getD k 0 + b * x2.getD k 0 := by
  simp only [List.getD_eq_getElem?_getD, List.getElem?_zipWith]
  by_cases hk : k < x1.length
  · have hk2 : k < x2.length := by omega
    simp [List.getElem?_eq_getElem hk, List.getElem?_eq_getElem hk2]
  · have h1 : x1[k]? = none := List.getElem?_eq_none (by omega)
    have h2 : x2[k]? = none := List.getElem?_eq_none (by omega)
    simp [h1, h2]

theorem linear_convolution_lincomb {R : Type} [LinearOrderedField R] (a b : R)
    (x1 x2 h : List R) (hlen : x2.length = x1.length) :
    linear_convolution (List.zipWith (fun u v => a * u + b * v) x1 x2) h
      = List.zipWith (fun u v => a * u + b * v) (linear_convolution x1 h)
          (linear_convolution x2 h) := by
  have hz : (List.zipWith (fun u v => a * u + b * v) x1 x2).length = x1.length := by
    simp [hlen]
  apply list_ext_getD 0 (by simp [linear_convolution_length, hlen])
  intro k hk
  have hk1 : k < x1.length + h.length - 1 := by
    simpa [linear_convolution_length, hlen] using hk
  rw [linear_convolution_getD _ _ (by rw [hz]; exact hk1), hz,
    getD_zipWith_lincomb a b _ _ (by simp [linear_convolution_length, hlen]),
    linear_convolution_getD _ _ hk1, linear_convolution_getD _ _ (by rw [hlen]; exact hk1),
    hlen, Finset.mul_sum, Finset.mul_sum, ← Finset.sum_add_distrib]
  refine Finset.sum_congr rfl fun j _ => ?_
  rw [getD_zipWith_lincomb a b x1 x2 hlen]
  split_ifs <;> ring

/-- C5: `convolve_fft` is linear in its first argument: for reals `a`, `b`,
non-empty `x1`, `x2` of the same length and non-empty `h`, the result on
`a*x1 + b*x2` is `a*y1 + b*y2` element-wise, where `y1`, `y2` are the results on
`x1` and `x2`. -/
theorem convolve_fft_linear (a b : ℝ) (x1 x2 h : List ℝ) (hx1 : x1 ≠ [])
    (hlen : x2.length = x1.length) (hh : h ≠ []) :
    ∃ y1 y2, convolve_fft realComplex x1 h = some y1 ∧ convolve_fft realComplex x2 h = some y2 ∧
      convolve_fft realComplex (List.zipWith (fun u v => a * u + b * v) x1 x2) h
        = some (List.zipWith (fun u v => a * u + b * v) y1 y2) := by
  have hx2 : x2 ≠ [] := by
    intro h2; rw [h2] at hlen; exact hx1 (List.length_eq_zero.mp hlen.symm)
  have hz : List.zipWith (fun u v => a * u + b * v) x1 x2 ≠ [] := by
    intro h0
    have := congrArg List.length h0
    simp [hlen] at this
    exact hx1 this
  refine ⟨linear_convolution x1 h, linear_convolution x2 h,
    convolve_fft_eq_linear_convolution x1 h hx1 hh,
    convolve_fft_eq_linear_convolution x2 h hx2 hh, ?_⟩
  rw [convolve_fft_eq_linear_convolution _ h hz hh, linear_convolution_lincomb a b x1 x2 h hlen]

/-- An instance of C5: `a = 2`, `b = 3`, `x1 = [1, 0]`, `x2 = [0, 1]`, `h = [1, 1]`. -/
theorem convolve_fft_linear_witness :
    ([1, 0] : List ℝ) ≠ [] ∧ ([0, 1] : List ℝ).length = ([1, 0] : List ℝ).length ∧
      ([1, 1] : List ℝ) ≠ [] ∧
      ∃ y1 y2, convolve_fft realComplex [1, 0] [1, 1] = some y1 ∧
        convolve_fft realComplex [0, 1] [1, 1] = some y2 ∧
        convolve_fft realComplex (List.zipWith (fun u v => 2 * u + 3 * v) [1, 0] [0, 1]) [1, 1]
          = some (List.zipWith (fun u v => 2 * u + 3 * v) y1 y2) :=
  ⟨by simp, by simp, by simp,
    convolve_fft_linear 2 3 [1, 0] [0, 1] [1, 1] (by simp) (by simp) (by simp)⟩

/-! ## The brick-wall filters on a tone -/

theorem realComplex_twiddle_four : realComplex.twiddle 4 = -Complex.I := by
  have e : -(2 * (Real.pi : ℂ) * Complex.I / ((4 : ℕ) : ℂ)) = ((-(Real.pi / 2) : ℝ) : ℂ) * Complex.I := by
    push_cast; ring
  simp only [realComplex]
  rw [e, Complex.exp_mul_I, ← Complex.ofReal_cos, ← Complex.ofReal_sin]
  simp [Real.cos_pi_div_two, Real.sin_pi_div_two]

theorem cosine_bin_one_of_four :
    (List.range 4).map (fun n : ℕ => Real.cos (2 * Real.pi * (1 : ℕ) * n / (4 : ℕ))) = [1, 0, -1, 0] := by
  have h1 : 2 * Real.pi / 4 = Real.pi / 2 := by ring
  have h2 : 2 * Real.pi * 2 / 4 = Real.pi := by ring
  have h3 : 2 * Real.pi * 3 / 4 = Real.pi / 2 + Real.pi := by ring
  simp [List.range_succ, h1, h2, h3, Real.cos_add]

@[simp]
theorem realComplex_ofReal (r : ℝ) : realComplex.ofReal r = (r : ℂ) := rfl

@[simp]
theorem realComplex_real (z : ℂ) : realComplex.real z = z.re := rfl

theorem neg_I_pow_two : (-Complex.I) ^ 2 = -1 := by
  rw [neg_sq, Complex.I_sq]

theorem neg_I_pow_three : (-Complex.I) ^ 3 = Complex.I := by
  rw [pow_succ, neg_I_pow_two]; ring

theorem neg_I_pow_six : (-Complex.I) ^ 6 = -1 := by
  rw [show 6 = 2 * 3 from rfl, pow_mul, neg_I_pow_two]; norm_num

theorem neg_I_pow_nine : (-Complex.I) ^ 9 = -Complex.I := by
  rw [show 9 = 2 * 4 + 1 from rfl, pow_succ, pow_mul, neg_I_pow_two]; norm_num

theorem I_pow_six : Complex.I ^ 6 = -1 := by
  rw [show 6 = 2 * 3 from rfl, pow_mul, Complex.I_sq]; norm_num

/-- C6, at a failing input: `N = 4`, `sr = 44100`, cutoff `12000`, bin `k = 1`
(`k < N/2` and `k·sr/N = 11025 ≤ 12000`).  The sinusoid `cos(2πkn/N)` is
`[1, 0, -1, 0]` and its spectrum is `[0, 2, 0, 2]`; the low-pass mask keeps
bin `1` and zeroes the mirror bin `3` (nominal frequency `33075 > 12000`), and
the result is `[1/2, 0, -1/2, 0]`: the tone is halved, not returned unchanged. -/
theorem apply_lowpass_filter_halves_passband_tone :
    ((1 : ℝ) < 4 / 2 ∧ (1 : ℝ) * 44100 / 4 ≤ 12000) ∧
      (List.range 4).map (fun n : ℕ => Real.cos (2 * Real.pi * (1 : ℕ) * n / (4 : ℕ)))
        = [1, 0, -1, 0] ∧
      apply_lowpass_filter realComplex
          ((List.range 4).map (fun n : ℕ => Real.cos (2 * Real.pi * (1 : ℕ) * n / (4 : ℕ))))
          12000 44100
        = [1 / 2, 0, -1 / 2, 0] := by
  refine ⟨by norm_num, cosine_bin_one_of_four, ?_⟩
  rw [cosine_bin_one_of_four]
  have b1 : ¬ ((12000 : ℝ) < 44100 / 4) := by norm_num
  have b2 : (12000 : ℝ) < 2 * 44100 / 4 := by norm_num
  have b3 : (12000 : ℝ) < 3 * 44100 / 4 := by norm_num
  simp [apply_lowpass_filter, fft, ifft, fftw_execute, realComplex_twiddle_four, List.range_succ,
    neg_I_pow_three, neg_I_pow_six, neg_I_pow_nine, I_pow_six, b1, b2, b3]
  norm_num

/-- C7, at a failing input: `N = 4`, `sr = 44100`, cutoff `12000`, bin `k = 1`
(`k < N/2` and `k·sr/N = 11025 < 12000`).  The high-pass mask zeroes bin `1`
but keeps the mirror bin `3` (nominal frequency `33075 ≥ 12000`), and the
result is `[1/2, 0, -1/2, 0]`, not the all-zero signal. -/
theorem apply_highpass_filter_leaks_stopband_tone :
    ((1 : ℝ) < 4 / 2 ∧ (1 : ℝ) * 44100 / 4 < 12000) ∧
      (List.range 4).map (fun n : ℕ => Real.cos (2 * Real.pi * (1 : ℕ) * n / (4 : ℕ)))
        = [1, 0, -1, 0] ∧
      apply_highpass_filter realComplex
          ((List.range 4).map (fun n : ℕ => Real.cos (2 * Real.pi * (1 : ℕ) * n / (4 : ℕ))))
          12000 44100
        = [1 / 2, 0, -1 / 2, 0] := by
  refine ⟨by norm_num, cosine_bin_one_of_four, ?_⟩
  rw [cosine_bin_one_of_four]
  have b1 : (44100 : ℝ) / 4 < 12000 := by norm_num
  have b2 : ¬ ((2 : ℝ) * 44100 / 4 < 12000) := by norm_num
  have b3 : ¬ ((3 : ℝ) * 44100 / 4 < 12000) := by norm_num
  simp [apply_highpass_filter, fft, ifft, fftw_execute, realComplex_twiddle_four,
    List.range_succ, neg_I_pow_three, neg_I_pow_six, neg_I_pow_nine, I_pow_six, b1, b2, b3]
  norm_num

/-! ## `apply_stereo_width` -/

section
variable {R : Type} [LinearOrderedField R]

theorem apply_stereo_width_nil_left (right : List R) (width : R) :
    apply_stereo_width [] right width = ([], right) := by
  simp [apply_stereo_width]

theorem apply_stereo_width_nil_right (left : List R) (width : R) :
    apply_stereo_width left [] width = (left, []) := by
  cases left <;> simp [apply_stereo_width]

theorem apply_stereo_width_cons (l r : R) (left right : List R) (width : R) :
    apply_stereo_width (l :: left) (r :: right) width
      = (((l + r) / 2 + (l - r) / 2 * (width / 100)) :: (apply_stereo_width left right width).1,
         ((l + r) / 2 - (l - r) / 2 * (width / 100)) :: (apply_stereo_width left right width).2) := by
  simp [apply_stereo_width]

theorem apply_stereo_width_length (left right : List R) (width : R) :
    (apply_stereo_width left right width).1.length = left.length ∧
      (apply_stereo_width left right width).2.length = right.length := by
  induction left generalizing right with
  | nil => simp [apply_stereo_width_nil_left]
  | cons l left ih =>
    cases right with
    | nil => simp [apply_stereo_width_nil_right]
    | cons r right =>
      rw [apply_stereo_width_cons]
      simp [(ih right).1, (ih right).2]

theorem apply_stereo_width_getElem_opt (left right : List R) (width : R) (i : ℕ)
    (hi : i < min left.length right.length) :
    (apply_stereo_width left right width).1[i]?
        = some ((left.getD i 0 + right.getD i 0) / 2
            + (left.getD i 0 - right.getD i 0) / 2 * (width / 100)) ∧
      (apply_stereo_width left right width).2[i]?
        = some ((left.getD i 0 + right.getD i 0) / 2
            - (left.getD i 0 - right.getD i 0) / 2 * (width / 100)) := by
  induction left generalizing right i with
  | nil => simp at hi
  | cons l left ih =>
    cases right with
    | nil => simp at hi
    | cons r right =>
      rw [apply_stereo_width_cons]
      cases i with
      | zero => simp
      | succ i =>
        have hi' : i < min left.length right.length := by
          simp only [List.length_cons, lt_min_iff] at hi ⊢
          omega
        simpa using ih right i hi'

theorem apply_stereo_width_tail (left right : List R) (width : R) (i : ℕ)
    (hi : min left.length right.length ≤ i) :
    (apply_stereo_width left right width).1[i]? = left[i]? ∧
      (apply_stereo_width left right width).2[i]? = right[i]? := by
  induction left generalizing right i with
  | nil => simp [apply_stereo_width_nil_left]
  | cons l left ih =>
    cases right with
    | nil => simp [apply_stereo_width_nil_right]
    | cons r right =>
      rw [apply_stereo_width_cons]
      cases i with
      | zero => simp at hi
      | succ i =>
        have hi' : min left.length right.length ≤ i := by
          simp only [List.length_cons, min_le_iff] at hi ⊢
          omega
        simpa using ih right i hi'

end

/-- C9: with width `0`, at every index `i` below both lengths the new `left[i]`
and the new `right[i]` both equal `(left[i] + right[i]) / 2`. -/
theorem apply_stereo_width_zero (left right : List ℝ) (i : ℕ)
    (hi : i < min left.length right.length) :
    (apply_stereo_width left right 0).1[i]? = some ((left.getD i 0 + right.getD i 0) / 2) ∧
      (apply_stereo_width left right 0).2[i]? = some ((left.getD i 0 + right.getD i 0) / 2) := by
  have h := apply_stereo_width_getElem_opt left right 0 i hi
  simpa using h

theorem apply_stereo_width_zero_witness :
    (1 < min ([1, 1] : List ℝ).length ([0, 0] : List ℝ).length) ∧
      (apply_stereo_width ([1, 1] : List ℝ) [0, 0] 0).1[1]? = some (1 / 2) ∧
      (apply_stereo_width ([1, 1] : List ℝ) [0, 0] 0).2[1]? = some (1 / 2) ∧
      apply_stereo_width ([1, 1] : List ℝ) [0, 0] 0 = ([1 / 2, 1 / 2], [1 / 2, 1 / 2]) := by
  have h := apply_stereo_width_zero [1, 1] [0, 0] 1 (by simp)
  refine ⟨by simp, ?_, ?_, ?_⟩
  · simpa using h.1
  · simpa using h.2
  · simp [apply_stereo_width]

/-- C10: `apply_stereo_width` preserves both lengths for every width, and at an
index `i` at or beyond the shorter length each sequence has exactly the entry
(or the absence of one) that it had before the call. -/
theorem apply_stereo_width_length_mismatch (left right : List ℝ) (width : ℝ) (i : ℕ)
    (hi : min left.length right.length ≤ i) :
    (apply_stereo_width left right width).1.length = left.length ∧
      (apply_stereo_width left right width).2.length = right.length ∧
      (apply_stereo_width left right width).1[i]? = left[i]? ∧
      (apply_stereo_width left right width).2[i]? = right[i]? :=
  ⟨(apply_stereo_width_length left right width).1, (apply_stereo_width_length left right width).2,
    (apply_stereo_width_tail left right width i hi).1,
    (apply_stereo_width_tail left right width i hi).2⟩

theorem apply_stereo_width_length_mismatch_witness :
    min ([1, 2, 3] : List ℝ).length ([5] : List ℝ).length ≤ 2 ∧
      (apply_stereo_width ([1, 2, 3] : List ℝ) [5] 50).1.length = 3 ∧
      (apply_stereo_width ([1, 2, 3] : List ℝ) [5] 50).2.length = 1 ∧
      (apply_stereo_width ([1, 2, 3] : List ℝ) [5] 50).1[2]? = some 3 ∧
      (apply_stereo_width ([1, 2, 3] : List ℝ) [5] 50).2[2]? = none := by
  have h := apply_stereo_width_length_mismatch [1, 2, 3] [5] 50 2 (by simp)
  refine ⟨by simp, ?_, ?_, ?_, ?_⟩
  · simpa using h.1
  · simpa using h.2.1
  · simpa using h.2.2.1
  · simpa using h.2.2.2

/-! ## Peak normalization -/

section
variable {R : Type} [LinearOrderedField R]

theorem max_scan_first_greatest (pre rest : List R) (b : R) (idx : ℕ)
    (hidx : pre[idx]? = some b) (hmax : ∀ s ∈ pre, |s| ≤ |b|)
    (hfirst : ∀ j, j < idx → |pre.getD j 0| < |b|) :
    ∃ idx', (pre ++ rest)[idx']?
          = some (rest.foldl (fun largest s => if |largest| < |s| then s else largest) b) ∧
      (∀ s ∈ pre ++ rest,
        |s| ≤ |rest.foldl (fun largest s => if |largest| < |s| then s else largest) b|) ∧
      (∀ j, j < idx' → |(pre ++ rest).getD j 0|
        < |rest.foldl (fun largest s => if |largest| < |s| then s else largest) b|) := by
  induction rest generalizing pre b idx with
  | nil => exact ⟨idx, by simpa using hidx, by simpa using hmax, by simpa using hfirst⟩
  | cons s rest ih =>
    have hlt : idx < pre.length := by
      by_contra hge
      rw [List.getElem?_eq_none (by omega)] at hidx
      exact absurd hidx (by simp)
    have happ : pre ++ s :: rest = (pre ++ [s]) ++ rest := by simp
    rw [happ, List.foldl_cons]
    by_cases hc : |b| < |s|
    · rw [if_pos hc]
      apply ih (pre ++ [s]) s pre.length
      · simp
      · intro t ht
        rcases List.mem_append.mp ht with h | h
        · exact le_of_lt (lt_of_le_of_lt (hmax t h) hc)
        · simp at h; rw [h]
      · intro j hj
        have : (pre ++ [s]).getD j 0 = pre.getD j 0 := by
          simp [List.getD_eq_getElem?_getD, List.getElem?_append_left hj]
        rw [this]
        have hmem : pre.getD j 0 ∈ pre := by
          rw [List.getD_eq_getElem _ _ hj]; exact List.getElem_mem _
        exact lt_of_le_of_lt (hmax _ hmem) hc
    · rw [if_neg hc]
      apply ih (pre ++ [s]) b idx
      · rw [List.getElem?_append_left hlt]; exact hidx
      · intro t ht
        rcases List.mem_append.mp ht with h | h
        · exact hmax t h
        · simp at h; rw [h]; exact not_lt.mp hc
      · intro j hj
        have : (pre ++ [s]).getD j 0 = pre.getD j 0 := by
          simp [List.getD_eq_getElem?_getD, List.getElem?_append_left (lt_trans hj hlt)]
        rw [this]
        exact hfirst j hj

theorem max_element_abs_spec (buf : List R) (hne : buf ≠ []) :
    ∃ m idx, max_element_abs buf = some m ∧ buf[idx]? = some m ∧
      (∀ s ∈ buf, |s| ≤ |m|) ∧ (∀ j, j < idx → |buf.getD j 0| < |m|) := by
  cases buf with
  | nil => exact absurd rfl hne
  | cons a rest =>
    obtain ⟨idx, h1, h2, h3⟩ := max_scan_first_greatest [a] rest a 0 (by simp)
      (by intro s hs; simp at hs; rw [hs]) (by intro j hj; omega)
    exact ⟨_, idx, rfl, by simpa using h1, by simpa using h2, by simpa using h3⟩

theorem normalize_channel_of_loud (buf : List R) (hloud : ∃ s ∈ buf, 1 < |s|) :
    ∃ m idx, buf[idx]? = some m ∧ (∀ s ∈ buf, |s| ≤ |m|) ∧
      (∀ j, j < idx → |buf.getD j 0| < |m|) ∧ 1 < |m| ∧
      normalize_channel buf = some (buf.map fun sample => sample / m) := by
  obtain ⟨s, hs, hs1⟩ := hloud
  have hne : buf ≠ [] := List.ne_nil_of_mem hs
  obtain ⟨m, idx, hm, hidx, hmax, hfirst⟩ := max_element_abs_spec buf hne
  have hm1 : 1 < |m| := lt_of_lt_of_le hs1 (hmax s hs)
  refine ⟨m, idx, hidx, hmax, hfirst, hm1, ?_⟩
  simp [normalize_channel, hm, hm1]

theorem normalize_channel_of_quiet (buf : List R) (hne : buf ≠ [])
    (hquiet : ∀ s ∈ buf, |s| ≤ 1) : normalize_channel buf = some buf := by
  obtain ⟨m, idx, hm, hidx, -, -⟩ := max_element_abs_spec buf hne
  have hmem : m ∈ buf := List.getElem?_mem hidx
  have : ¬ (1 < |m|) := not_lt.mpr (hquiet m hmem)
  simp [normalize_channel, hm, this]

end

/-- C11: for a channel buffer whose peak magnitude exceeds `1.0` (some sample
has magnitude above `1`), the normalization step succeeds, keeps the length,
and leaves a buffer whose peak magnitude is exactly `1`: every sample has
magnitude at most `1` and some sample has magnitude `1`. -/
theorem normalize_channel_peak_is_one (buf : List ℝ) (hloud : ∃ s ∈ buf, 1 < |s|) :
    ∃ out, normalize_channel buf = some out ∧ out.length = buf.length ∧
      (∀ s ∈ out, |s| ≤ 1) ∧ ∃ s ∈ out, |s| = 1 := by
  obtain ⟨m, idx, hidx, hmax, -, hm1, hnorm⟩ := normalize_channel_of_loud buf hloud
  have hm0 : 0 < |m| := lt_trans zero_lt_one hm1
  have hmne : m ≠ 0 := abs_pos.mp hm0
  refine ⟨_, hnorm, by simp, ?_, ?_⟩
  · intro s hs
    obtain ⟨t, ht, rfl⟩ := List.mem_map.mp hs
    rw [abs_div, div_le_one hm0]
    exact hmax t ht
  · refine ⟨m / m, List.mem_map.mpr ⟨m, List.getElem?_mem hidx, rfl⟩, ?_⟩
    rw [div_self hmne, abs_one]

/-- An instance of C11: `[1, -2]` has peak magnitude `2` and is normalized to
`[-1/2, 1]`. -/
theorem normalize_channel_peak_is_one_witness :
    (∃ s ∈ ([1, -2] : List ℝ), 1 < |s|) ∧
      (∃ out, normalize_channel ([1, -2] : List ℝ) = some out ∧
        out.length = ([1, -2] : List ℝ).length ∧ (∀ s ∈ out, |s| ≤ 1) ∧ ∃ s ∈ out, |s| = 1) ∧
      normalize_channel ([1, -2] : List ℝ) = some [-1 / 2, 1] := by
  have h : ∃ s ∈ ([1, -2] : List ℝ), 1 < |s| := ⟨-2, by simp, by norm_num⟩
  refine ⟨h, normalize_channel_peak_is_one [1, -2] h, ?_⟩
  have h1 : |(1 : ℝ)| < |(-2 : ℝ)| := by norm_num
  simp [normalize_channel, max_element_abs, h1]
  norm_num

/-- C12: a non-empty channel buffer whose peak magnitude is at most `1.0`, the
all-zero buffer included, passes the normalization step unchanged (no sample is
divided). -/
theorem normalize_channel_quiet_unchanged (buf : List ℝ) (hne : buf ≠ [])
    (hquiet : ∀ s ∈ buf, |s| ≤ 1) : normalize_channel buf = some buf :=
  normalize_channel_of_quiet buf hne hquiet

/-- An instance of C12: the silent buffer `[0, 0, 0]`. -/
theorem normalize_channel_quiet_unchanged_witness :
    ([0, 0, 0] : List ℝ) ≠ [] ∧ (∀ s ∈ ([0, 0, 0] : List ℝ), |s| ≤ 1) ∧
      normalize_channel ([0, 0, 0] : List ℝ) = some [0, 0, 0] :=
  ⟨by simp, by simp,
    normalize_channel_quiet_unchanged [0, 0, 0] (by simp) (by simp)⟩

/-- C13: for a channel buffer whose peak magnitude exceeds `1.0`, there are a
sample `m` and its index `idx` such that `m` is the first sample of greatest
magnitude, the normalized buffer is every sample divided by the signed `m`, the
sample at `idx` becomes `+1`, and when `m` is negative every output sample is
`-input / |m|`. -/
theorem normalize_channel_signed_peak (buf : List ℝ) (hloud : ∃ s ∈ buf, 1 < |s|) :
    ∃ m idx, buf[idx]? = some m ∧ (∀ s ∈ buf, |s| ≤ |m|) ∧
      (∀ j, j < idx → |buf.getD j 0| < |m|) ∧
      normalize_channel buf = some (buf.map fun sample => sample / m) ∧
      (buf.map fun sample => sample / m)[idx]? = some 1 ∧
      (m < 0 → normalize_channel buf = some (buf.map fun sample => -sample / |m|)) := by
  obtain ⟨m, idx, hidx, hmax, hfirst, hm1, hnorm⟩ := normalize_channel_of_loud buf hloud
  have hmne : m ≠ 0 := abs_pos.mp (lt_trans zero_lt_one hm1)
  refine ⟨m, idx, hidx, hmax, hfirst, hnorm, ?_, ?_⟩
  · rw [List.getElem?_map, hidx]
    simp [div_self hmne]
  · intro hneg
    rw [hnorm, abs_of_neg hneg]
    congr 1
    apply List.map_congr_left
    intro s _
    rw [neg_div_neg_eq]

/-- An instance of C13: in `[1, -2, 2]` the first sample of greatest magnitude
is `-2`; the buffer becomes `[-1/2, 1, -1]`, with inverted polarity. -/
theorem normalize_channel_signed_peak_witness :
    (∃ s ∈ ([1, -2, 2] : List ℝ), 1 < |s|) ∧
      (∃ m idx, ([1, -2, 2] : List ℝ)[idx]? = some m ∧
        (∀ s ∈ ([1, -2, 2] : List ℝ), |s| ≤ |m|) ∧
        (∀ j, j < idx → |([1, -2, 2] : List ℝ).getD j 0| < |m|) ∧
        normalize_channel ([1, -2, 2] : List ℝ)
          = some (([1, -2, 2] : List ℝ).map fun sample => sample / m) ∧
        (([1, -2, 2] : List ℝ).map fun sample => sample / m)[idx]? = some 1 ∧
        (m < 0 → normalize_channel ([1, -2, 2] : List ℝ)
          = some (([1, -2, 2] : List ℝ).map fun sample => -sample / |m|))) ∧
      normalize_channel ([1, -2, 2] : List ℝ) = some [-1 / 2, 1, -1] := by
  have h : ∃ s ∈ ([1, -2, 2] : List ℝ), 1 < |s| := ⟨-2, by simp, by norm_num⟩
  refine ⟨h, normalize_channel_signed_peak [1, -2, 2] h, ?_⟩
  have h1 : |(1 : ℝ)| < |(-2 : ℝ)| := by norm_num
  simp [normalize_channel, max_element_abs, h1]
  norm_num

/-! ## Mix, gain and the mid/side form of the width step -/

section
variable {R : Type} [LinearOrderedField R]

theorem map_range_getD_self {α : Type} (d : α) (l : List α) :
    (List.range l.length).map (fun i => l.getD i d) = l := by
  apply List.ext_getElem (by simp)
  intro k h1 h2
  simp [List.getD_eq_getElem?_getD, h2]

theorem dry_wet_mix_full_wet (left1 right1 leftOutput rightOutput : List R) :
    dry_wet_mix left1 right1 leftOutput rightOutput 100 = (leftOutput, rightOutput) := by
  simp only [dry_wet_mix]
  have e1 : ∀ a b : R, a * (1 - 100 / 100) + b * (100 / 100) = b := by intro a b; ring
  simp only [e1, ite_self, map_range_getD_self]

theorem apply_gain_length (pow : R → R → R) (g : R) (s : List R) :
    (apply_gain pow g s).length = s.length := by
  simp [apply_gain]

theorem apply_gain_of_pow_one (pow : R → R → R) (g : R) (s : List R) (h : pow 10 (g / 20) = 1) :
    apply_gain pow g s = s := by
  simp [apply_gain, h]

end

/-- C14: in the dry/wet loop, with `dryWet = 0` the output at every index
`i < |w|` is the dry sample `d[i]` inside the dry buffer and `0` past its end, on
both channels; with `dryWet = 100` both processed buffers are returned
unchanged.  The processed buffers are at least as long as the dry ones and of
equal length, as in `main`. -/
theorem dry_wet_mix_boundary (dl dr wl wr : List ℝ) (i : ℕ)
    (_hl : dl.length ≤ wl.length) (_hr : dr.length ≤ wr.length)
    (hlen : wr.length = wl.length) (hi : i < wl.length) :
    ((dry_wet_mix dl dr wl wr 0).1.getD i 0 = if i < dl.length then dl.getD i 0 else 0) ∧
      ((dry_wet_mix dl dr wl wr 0).2.getD i 0 = if i < dr.length then dr.getD i 0 else 0) ∧
      (dry_wet_mix dl dr wl wr 0).1.length = wl.length ∧
      (dry_wet_mix dl dr wl wr 0).2.length = wr.length ∧
      dry_wet_mix dl dr wl wr 100 = (wl, wr) := by
  refine ⟨?_, ?_, by simp [dry_wet_mix], by simp [dry_wet_mix], dry_wet_mix_full_wet dl dr wl wr⟩
  · simp only [dry_wet_mix]
    rw [getD_map_range _ _ hi]
    split_ifs <;> ring
  · simp only [dry_wet_mix]
    rw [getD_map_range _ _ (by rw [hlen]; exact hi), if_pos hi]
    split_ifs <;> ring

/-- An instance of C14: dry `[1, 2]` and `[3, 4]`, processed `[5, 6, 7]` and
`[8, 9, 10]`, at index `2`, past the end of the dry buffers. -/
theorem dry_wet_mix_boundary_witness :
    ([1, 2] : List ℝ).length ≤ ([5, 6, 7] : List ℝ).length ∧
      ([3, 4] : List ℝ).length ≤ ([8, 9, 10] : List ℝ).length ∧
      ([8, 9, 10] : List ℝ).length = ([5, 6, 7] : List ℝ).length ∧
      2 < ([5, 6, 7] : List ℝ).length ∧
      (dry_wet_mix ([1, 2] : List ℝ) [3, 4] [5, 6, 7] [8, 9, 10] 0).1.getD 2 0 = 0 ∧
      dry_wet_mix ([1, 2] : List ℝ) [3, 4] [5, 6, 7] [8, 9, 10] 100
        = ([5, 6, 7], [8, 9, 10]) := by
  have h := dry_wet_mix_boundary [1, 2] [3, 4] [5, 6, 7] [8, 9, 10] 2
    (by simp) (by simp) (by simp) (by simp)
  refine ⟨by simp, by simp, by simp, by simp, ?_, h.2.2.2.2⟩
  simpa using h.1

section
variable {K : Type} [Field K]

theorem ifft_mask_getD (w : ℕ → K) (g : ℕ → K) {N n : ℕ} (hn : n < N) :
    (ifft w ((List.range N).map g)).getD n 0
      = (∑ k in Finset.range N, g k * (w N)⁻¹ ^ (k * n)) / (N : K) := by
  have hlen : ((List.range N).map g).length = N := by simp
  rw [ifft_getD _ _ (by rw [hlen]; exact hn), hlen]
  congr 1
  refine Finset.sum_congr rfl fun k hk => ?_
  rw [getD_map_range _ _ (Finset.mem_range.mp hk)]

theorem dft_sum_over_time {ζ : K} {N : ℕ} (hζ : IsPrimitiveRoot ζ N) (hN : 0 < N) (g : ℕ → K) :
    ∑ n in Finset.range N, ∑ k in Finset.range N, g k * ζ⁻¹ ^ (k * n) = (N : K) * g 0 := by
  rw [Finset.sum_comm]
  have inner : ∀ k ∈ Finset.range N,
      ∑ n in Finset.range N, g k * ζ⁻¹ ^ (k * n) = if k = 0 then (N : K) * g 0 else 0 := by
    intro k hk
    have hk' : k % N = k := Nat.mod_eq_of_lt (Finset.mem_range.mp hk)
    have h := root_orthogonality hζ.inv k hN
    simp only [mul_zero, pow_zero, mul_one, hk'] at h
    rw [← Finset.mul_sum, h]
    split_ifs with h0
    · rw [h0, mul_comm]
    · simp
  rw [Finset.sum_congr rfl inner, Finset.sum_ite_eq' (Finset.range N) 0]
  simp [hN]

end

theorem fft_ofReal_getD (x : List ℝ) {k : ℕ} (hk : k < x.length) :
    (fft realComplex.twiddle (x.map realComplex.ofReal)).getD k 0
      = ∑ j in Finset.range x.length,
          ((x.getD j 0 : ℝ) : ℂ) * realComplex.twiddle x.length ^ (j * k) := by
  have hlen : (x.map realComplex.ofReal).length = x.length := by simp
  rw [fft_getD _ _ (by rw [hlen]; exact hk), hlen]
  refine Finset.sum_congr rfl fun j _ => ?_
  rw [getD_map_ofReal]

section
variable {R K : Type} [LinearOrderedField R] [Field K]

@[simp]
theorem apply_lowpass_filter_length (C : StdComplex R K) (x : List R) (c : R) (sr : ℤ) :
    (apply_lowpass_filter C x c sr).length = x.length := by
  simp [apply_lowpass_filter]

@[simp]
theorem apply_highpass_filter_length (C : StdComplex R K) (x : List R) (c : R) (sr : ℤ) :
    (apply_highpass_filter C x c sr).length = x.length := by
  simp [apply_highpass_filter]

end

theorem apply_lowpass_filter_getD (x : List ℝ) (c : ℝ) (sr : ℤ) {n : ℕ} (hn : n < x.length) :
    (apply_lowpass_filter realComplex x c sr).getD n 0
      = ((∑ k in Finset.range x.length,
            (if ((k : ℝ) * (sr : ℝ) / (x.length : ℝ)) > c then 0
              else (fft realComplex.twiddle (x.map realComplex.ofReal)).getD k 0)
            * (realComplex.twiddle x.length)⁻¹ ^ (k * n)) / (x.length : ℂ)).re := by
  rw [apply_lowpass_filter, getD_map_range _ _ hn, ifft_mask_getD _ _ hn]
  rfl

theorem apply_highpass_filter_getD (x : List ℝ) (c : ℝ) (sr : ℤ) {n : ℕ} (hn : n < x.length) :
    (apply_highpass_filter realComplex x c sr).getD n 0
      = ((∑ k in Finset.range x.length,
            (if ((k : ℝ) * (sr : ℝ) / (x.length : ℝ)) < c then 0
              else (fft realComplex.twiddle (x.map realComplex.ofReal)).getD k 0)
            * (realComplex.twiddle x.length)⁻¹ ^ (k * n)) / (x.length : ℂ)).re := by
  rw [apply_highpass_filter, getD_map_range _ _ hn, ifft_mask_getD _ _ hn]
  rfl

theorem sum_re_ifft_mask (g : ℕ → ℂ) {N : ℕ} (hN : 0 < N) :
    ((List.range N).map fun n =>
        realComplex.real ((ifft realComplex.twiddle ((List.range N).map g)).getD n 0)).sum
      = (g 0).re := by
  have hNne : (N : ℂ) ≠ 0 := by exact_mod_cast hN.ne'
  have hζ := realComplex_twiddle_primitive N hN
  rw [sum_map_range]
  have hterm : ∀ n ∈ Finset.range N,
      realComplex.real ((ifft realComplex.twiddle ((List.range N).map g)).getD n 0)
        = ((∑ k in Finset.range N, g k * (realComplex.twiddle N)⁻¹ ^ (k * n)) / (N : ℂ)).re := by
    intro n hn
    rw [ifft_mask_getD _ _ (Finset.mem_range.mp hn)]
    rfl
  rw [Finset.sum_congr rfl hterm, ← Complex.re_sum, ← Finset.sum_div,
    dft_sum_over_time hζ hN g, mul_div_cancel_left₀ _ hNne]

theorem sum_getD_eq_sum (x : List ℝ) : ∑ j in Finset.range x.length, x.getD j 0 = x.sum := by
  rw [← sum_map_range, map_range_getD_self]

section
variable {R K : Type} [LinearOrderedField R] [Field K]

theorem convolve_fft_nil_nil (C : StdComplex R K) : convolve_fft C ([] : List R) [] = none := by
  simp [convolve_fft, pad_zeros]

theorem convolve_fft_some_length (C : StdComplex R K) (x h y : List R)
    (hy : convolve_fft C x h = some y) : y.length = x.length + h.length - 1 := by
  by_cases hne : x ≠ [] ∨ h ≠ []
  · obtain ⟨y', hy', hlen⟩ := convolve_fft_length C x h hne
    rw [hy] at hy'
    rw [Option.some.inj hy']
    exact hlen
  · push_neg at hne
    rw [hne.1, hne.2, convolve_fft_nil_nil] at hy
    exact absurd hy (by simp)

theorem convolve_fft_isSome_congr (C : StdComplex R K) (x h x' h' : List R)
    (hx : x'.length = x.length) (hh : h'.length = h.length) :
    (convolve_fft C x' h').isSome = (convolve_fft C x h).isSome := by
  by_cases hne : x ≠ [] ∨ h ≠ []
  · have hne' : x' ≠ [] ∨ h' ≠ [] := by
      rcases hne with h1 | h1
      · left; intro h0; apply h1; apply List.length_eq_zero.mp; rw [← hx, h0]; rfl
      · right; intro h0; apply h1; apply List.length_eq_zero.mp; rw [← hh, h0]; rfl
    obtain ⟨y, hy, -⟩ := convolve_fft_length C x h hne
    obtain ⟨y', hy', -⟩ := convolve_fft_length C x' h' hne'
    rw [hy, hy']; rfl
  · push_neg at hne
    have hx' : x' = [] := List.length_eq_zero.mp (by rw [hx, hne.1]; rfl)
    have hh' : h' = [] := List.length_eq_zero.mp (by rw [hh, hne.2]; rfl)
    rw [hne.1, hne.2, hx', hh']

@[simp]
theorem dry_wet_mix_length_left (l1 r1 lo ro : List R) (dw : R) :
    (dry_wet_mix l1 r1 lo ro dw).1.length = lo.length := by
  simp [dry_wet_mix]

@[simp]
theorem dry_wet_mix_length_right (l1 r1 lo ro : List R) (dw : R) :
    (dry_wet_mix l1 r1 lo ro dw).2.length = ro.length := by
  simp [dry_wet_mix]

theorem dry_wet_mix_left (l1 r1 lo ro : List R) (dw : R) :
    (dry_wet_mix l1 r1 lo ro dw).1 = (dry_wet_mix l1 l1 lo lo dw).1 := rfl

theorem dry_wet_mix_right (l1 r1 lo ro : List R) (dw : R) (hlen : ro.length = lo.length) :
    (dry_wet_mix l1 r1 lo ro dw).2 = (dry_wet_mix r1 r1 ro ro dw).1 := by
  simp only [dry_wet_mix]
  apply List.map_congr_left
  intro i hi
  have : i < lo.length := by rw [← hlen]; exact List.mem_range.mp hi
  rw [if_pos this]

theorem normalize_channel_nil : normalize_channel ([] : List R) = none := by
  simp [normalize_channel, max_element_abs]

theorem normalize_channel_some (buf : List R) (hne : buf ≠ []) :
    ∃ out, normalize_channel buf = some out ∧ out.length = buf.length := by
  obtain ⟨m, idx, hm, -, -, -⟩ := max_element_abs_spec buf hne
  by_cases h : 1 < |m|
  · exact ⟨_, by simp [normalize_channel, hm, h]; rfl, by simp⟩
  · exact ⟨buf, by simp [normalize_channel, hm, h], rfl⟩

@[simp]
theorem interleave_length (l r : List R) : (interleave l r).length = l.length * 2 := by
  simp [interleave]

theorem channel_left_interleave (l r : List R) : channel_left (interleave l r) = l := by
  apply list_ext_getD 0 (by simp [channel_left])
  intro i hi
  have hi' : i < l.length := by simpa [channel_left] using hi
  rw [channel_left, getD_map_range _ _ (by simpa using hi'), interleave,
    getD_map_range _ _ (by omega)]
  simp

theorem channel_right_interleave (l r : List R) (hlen : r.length = l.length) :
    channel_right (interleave l r) = r := by
  apply list_ext_getD 0 (by simp [channel_right, hlen])
  intro i hi
  have hi' : i < l.length := by simpa [channel_right] using hi
  rw [channel_right, getD_map_range _ _ (by simpa using hi'), interleave,
    getD_map_range _ _ (by omega)]
  have h1 : (2 * i + 1) % 2 = 1 := by omega
  have h2 : (2 * i + 1) / 2 = i := by omega
  simp [h1, h2]

@[simp]
theorem channel_left_length (s : List R) : (channel_left s).length = s.length / 2 := by
  simp [channel_left]

@[simp]
theorem channel_right_length (s : List R) : (channel_right s).length = s.length / 2 := by
  simp [channel_right]

theorem getD_apply_gain (pow : R → R → R) (g : R) (s : List R) (k : ℕ) :
    (apply_gain pow g s).getD k 0 = s.getD k 0 * pow 10 (g / 20) := by
  simp only [apply_gain, List.getD_eq_getElem?_getD, List.getElem?_map]
  cases s[k]? <;> simp

theorem channel_left_apply_gain (pow : R → R → R) (g : R) (s : List R) :
    channel_left (apply_gain pow g s) = apply_gain pow g (channel_left s) := by
  simp only [channel_left, apply_gain_length]
  simp only [getD_apply_gain]
  simp [apply_gain]

theorem channel_right_apply_gain (pow : R → R → R) (g : R) (s : List R) :
    channel_right (apply_gain pow g s) = apply_gain pow g (channel_right s) := by
  simp only [channel_right, apply_gain_length]
  simp only [getD_apply_gain]
  simp [apply_gain]

theorem normalize_step_some_length (b : Bool) (buf out : List R)
    (h : (if b = true then normalize_channel buf else pure buf) = some out) :
    out.length = buf.length := by
  by_cases hb : b = true
  · rw [if_pos hb] at h
    have hnil : buf ≠ [] := by
      intro h0; rw [h0, normalize_channel_nil] at h; simp at h
    obtain ⟨o, ho, hlen⟩ := normalize_channel_some buf hnil
    rw [ho] at h
    rw [← Option.some.inj h, hlen]
  · rw [if_neg hb] at h
    rw [← Option.some.inj h]

theorem channel_post_some_length (C : StdComplex R K) (pow : R → R → R) (st : EffectSettings R)
    (sr : ℤ) (dry output out : List R) (h : channel_post C pow st sr dry output = some out) :
    out.length = output.length := by
  simp only [channel_post] at h
  rw [normalize_step_some_length _ _ _ h]
  simp only [apply_gain_length, dry_wet_mix_length_left]
  split_ifs <;> simp

theorem channel_post_isSome_congr (C : StdComplex R K) (pow : R → R → R) (st : EffectSettings R)
    (sr : ℤ) (dry output dry' output' : List R) (hlen : output'.length = output.length) :
    (channel_post C pow st sr dry' output').isSome = (channel_post C pow st sr dry output).isSome := by
  by_cases hn : st.normalize = true
  · by_cases h0 : output = []
    · have h0' : output' = [] := List.length_eq_zero.mp (by rw [hlen, h0]; rfl)
      have e : ∀ d : List R, channel_post C pow st sr d [] = none := by
        intro d
        have : ∀ l : List R, l.length = 0 → normalize_channel l = none := by
          intro l hl; rw [List.length_eq_zero.mp hl, normalize_channel_nil]
        simp only [channel_post, if_pos hn]
        apply this
        simp only [apply_gain_length, dry_wet_mix_length_left]
        split_ifs <;> simp
      rw [h0, h0', e, e]
    · have h0' : output' ≠ [] := by
        intro h; apply h0; apply List.length_eq_zero.mp; rw [← hlen, h]; rfl
      have e : ∀ d o : List R, o ≠ [] → (channel_post C pow st sr d o).isSome = true := by
        intro d o ho
        have : ∀ l : List R, l.length ≠ 0 → (normalize_channel l).isSome = true := by
          intro l hl
          obtain ⟨out, hout, -⟩ := normalize_channel_some l (by intro h; rw [h] at hl; simp at hl)
          rw [hout]; rfl
        simp only [channel_post, if_pos hn]
        apply this
        have ho' : o.length ≠ 0 := by intro h; exact ho (List.length_eq_zero.mp h)
        simp only [apply_gain_length, dry_wet_mix_length_left]
        split_ifs <;> simpa using ho'
      rw [e _ _ h0, e _ _ h0']
  · simp [channel_post, hn]

theorem process_eq_channels (C : StdComplex R K) (pow : R → R → R) (st : EffectSettings R)
    (sr : ℤ) (signal1 signal2 : List R) (hw : st.stereoWidth = 100) :
    process C pow st sr signal1 signal2
      = (convolve_fft C (channel_left (apply_gain pow st.inputGain signal1))
          (channel_left (apply_gain pow st.impulseGain signal2))).bind fun lo =>
        (convolve_fft C (channel_right (apply_gain pow st.inputGain signal1))
          (channel_right (apply_gain pow st.impulseGain signal2))).bind fun ro =>
        (channel_post C pow st sr (channel_left (apply_gain pow st.inputGain signal1)) lo).bind
          fun lf =>
        (channel_post C pow st sr (channel_right (apply_gain pow st.inputGain signal1)) ro).bind
          fun rf => some (interleave lf rf) := by
  simp only [process, Option.bind_eq_bind, Option.pure_def]
  cases hL : convolve_fft C (channel_left (apply_gain pow st.inputGain signal1))
      (channel_left (apply_gain pow st.impulseGain signal2)) with
  | none => simp
  | some lo =>
    cases hR : convolve_fft C (channel_right (apply_gain pow st.inputGain signal1))
        (channel_right (apply_gain pow st.impulseGain signal2)) with
    | none => simp
    | some ro =>
      have hlo := convolve_fft_some_length C _ _ lo hL
      have hro := convolve_fft_some_length C _ _ ro hR
      have hlen : ro.length = lo.length := by
        rw [hlo, hro]; simp
      have hhigh : (if st.highPassFreq > 20 then
            apply_highpass_filter C
              (if st.lowPassFreq < 20000 then apply_lowpass_filter C ro st.lowPassFreq sr else ro)
              st.highPassFreq sr
          else if st.lowPassFreq < 20000 then apply_lowpass_filter C ro st.lowPassFreq sr
            else ro).length
          = (if st.highPassFreq > 20 then
            apply_highpass_filter C
              (if st.lowPassFreq < 20000 then apply_lowpass_filter C lo st.lowPassFreq sr else lo)
              st.highPassFreq sr
          else if st.lowPassFreq < 20000 then apply_lowpass_filter C lo st.lowPassFreq sr
            else lo).length := by
        split_ifs <;> simp [hlen]
      have hmix := dry_wet_mix_right (channel_left (apply_gain pow st.inputGain signal1))
        (channel_right (apply_gain pow st.inputGain signal1)) _ _ st.dryWet hhigh
      have hw' : ¬ (st.stereoWidth ≠ 100) := by simp [hw]
      simp only [Option.some_bind, if_neg hw', channel_post]
      rw [hmix]
      cases st.normalize <;> rfl

theorem process_left_independent (C : StdComplex R K) (pow : R → R → R) (st : EffectSettings R)
    (sr : ℤ) (s1 s2 s1' s2' : List R) (hw : st.stereoWidth = 100)
    (hL1 : channel_left s1' = channel_left s1) (hL2 : channel_left s2' = channel_left s2)
    (hlen1 : s1'.length = s1.length) (hlen2 : s2'.length = s2.length) :
    (process C pow st sr s1' s2').map channel_left
      = (process C pow st sr s1 s2).map channel_left := by
  rw [process_eq_channels _ _ _ _ _ _ hw, process_eq_channels _ _ _ _ _ _ hw]
  simp only [channel_left_apply_gain, hL1, hL2]
  cases hcl : convolve_fft C (apply_gain pow st.inputGain (channel_left s1))
      (apply_gain pow st.impulseGain (channel_left s2)) with
  | none => simp
  | some lo =>
    simp only [Option.some_bind]
    have hiso := convolve_fft_isSome_congr C
      (channel_right (apply_gain pow st.inputGain s1))
      (channel_right (apply_gain pow st.impulseGain s2))
      (channel_right (apply_gain pow st.inputGain s1'))
      (channel_right (apply_gain pow st.impulseGain s2'))
      (by simp [apply_gain_length, hlen1]) (by simp [apply_gain_length, hlen2])
    cases hcr : convolve_fft C (channel_right (apply_gain pow st.inputGain s1))
        (channel_right (apply_gain pow st.impulseGain s2)) with
    | none =>
      rw [hcr] at hiso
      cases hcr' : convolve_fft C (channel_right (apply_gain pow st.inputGain s1'))
          (channel_right (apply_gain pow st.impulseGain s2')) with
      | none => simp
      | some ro' => rw [hcr'] at hiso; simp at hiso
    | some ro =>
      rw [hcr] at hiso
      cases hcr' : convolve_fft C (channel_right (apply_gain pow st.inputGain s1'))
          (channel_right (apply_gain pow st.impulseGain s2')) with
      | none => rw [hcr'] at hiso; simp at hiso
      | some ro' =>
        have hro := convolve_fft_some_length C _ _ ro hcr
        have hro' := convolve_fft_some_length C _ _ ro' hcr'
        have hrolen : ro'.length = ro.length := by
          rw [hro, hro']; simp [apply_gain_length, hlen1, hlen2]
        simp only [Option.some_bind]
        cases hpl : channel_post C pow st sr (apply_gain pow st.inputGain (channel_left s1)) lo with
        | none => simp
        | some lf =>
          simp only [Option.some_bind]
          have hpiso := channel_post_isSome_congr C pow st sr
            (channel_right (apply_gain pow st.inputGain s1)) ro
            (channel_right (apply_gain pow st.inputGain s1')) ro' hrolen
          cases hpr : channel_post C pow st sr (channel_right (apply_gain pow st.inputGain s1)) ro
            with
          | none =>
            rw [hpr] at hpiso
            cases hpr' : channel_post C pow st sr
                (channel_right (apply_gain pow st.inputGain s1')) ro' with
            | none => simp
            | some rf' => rw [hpr'] at hpiso; simp at hpiso
          | some rf =>
            rw [hpr] at hpiso
            cases hpr' : channel_post C pow st sr
                (channel_right (apply_gain pow st.inputGain s1')) ro' with
            | none => rw [hpr'] at hpiso; simp at hpiso
            | some rf' => simp [channel_left_interleave]

theorem process_right_independent (C : StdComplex R K) (pow : R → R → R) (st : EffectSettings R)
    (sr : ℤ) (s1 s2 s1' s2' : List R) (hw : st.stereoWidth = 100)
    (hR1 : channel_right s1' = channel_right s1) (hR2 : channel_right s2' = channel_right s2)
    (hlen1 : s1'.length = s1.length) (hlen2 : s2'.length = s2.length) :
    (process C pow st sr s1' s2').map channel_right
      = (process C pow st sr s1 s2).map channel_right := by
  rw [process_eq_channels _ _ _ _ _ _ hw, process_eq_channels _ _ _ _ _ _ hw]
  simp only [channel_right_apply_gain, hR1, hR2]
  have hiso := convolve_fft_isSome_congr C
    (channel_left (apply_gain pow st.inputGain s1))
    (channel_left (apply_gain pow st.impulseGain s2))
    (channel_left (apply_gain pow st.inputGain s1'))
    (channel_left (apply_gain pow st.impulseGain s2'))
    (by simp [apply_gain_length, hlen1]) (by simp [apply_gain_length, hlen2])
  cases hcl : convolve_fft C (channel_left (apply_gain pow st.inputGain s1))
      (channel_left (apply_gain pow st.impulseGain s2)) with
  | none =>
    rw [hcl] at hiso
    cases hcl' : convolve_fft C (channel_left (apply_gain pow st.inputGain s1'))
        (channel_left (apply_gain pow st.impulseGain s2')) with
    | none => simp
    | some lo' => rw [hcl'] at hiso; simp at hiso
  | some lo =>
    rw [hcl] at hiso
    cases hcl' : convolve_fft C (channel_left (apply_gain pow st.inputGain s1'))
        (channel_left (apply_gain pow st.impulseGain s2')) with
    | none => rw [hcl'] at hiso; simp at hiso
    | some lo' =>
      have hlo := convolve_fft_some_length C _ _ lo hcl
      have hlo' := convolve_fft_some_length C _ _ lo' hcl'
      have hlolen : lo'.length = lo.length := by
        rw [hlo, hlo']; simp [apply_gain_length, hlen1, hlen2]
      simp only [Option.some_bind]
      cases hcr : convolve_fft C (apply_gain pow st.inputGain (channel_right s1))
          (apply_gain pow st.impulseGain (channel_right s2)) with
      | none => simp
      | some ro =>
        have hro := convolve_fft_some_length C _ _ ro hcr
        have hrolen : ro.length = lo.length := by
          rw [hro, hlo]; simp [apply_gain_length]
        simp only [Option.some_bind]
        have hpiso := channel_post_isSome_congr C pow st sr
          (channel_left (apply_gain pow st.inputGain s1)) lo
          (channel_left (apply_gain pow st.inputGain s1')) lo' hlolen
        cases hpl : channel_post C pow st sr (channel_left (apply_gain pow st.inputGain s1)) lo
          with
        | none =>
          rw [hpl] at hpiso
          cases hpl' : channel_post C pow st sr
              (channel_left (apply_gain pow st.inputGain s1')) lo' with
          | none => simp
          | some lf' => rw [hpl'] at hpiso; simp at hpiso
        | some lf =>
          rw [hpl] at hpiso
          cases hpl' : channel_post C pow st sr
              (channel_left (apply_gain pow st.inputGain s1')) lo' with
          | none => rw [hpl'] at hpiso; simp at hpiso
          | some lf' =>
            have hlf := channel_post_some_length C pow st sr _ _ _ hpl
            have hlf' := channel_post_some_length C pow st sr _ _ _ hpl'
            simp only [Option.some_bind]
            cases hpr : channel_post C pow st sr (apply_gain pow st.inputGain (channel_right s1)) ro
              with
            | none => simp
            | some rf =>
              have hrf := channel_post_some_length C pow st sr _ _ _ hpr
              simp only [Option.some_bind, Option.map_some']
              rw [channel_right_interleave lf' rf (by omega),
                channel_right_interleave lf rf (by omega)]

end

theorem apply_gain_zero (s : List ℝ) : apply_gain Real.rpow 0 s = s :=
  apply_gain_of_pow_one _ _ _ (by simp [Real.rpow_eq_pow])

/-- C16: with `lowPassFreq = 20000` and `highPassFreq = 20` the result of the
chain does not depend on the sample rate (neither filter is run); with, in
addition, `stereoWidth = 100`, `dryWet = 100`, the three gains `0`, `normalize`
off, and at least one stereo frame in the dry and in the impulse-response
buffer, the output is the interleaving of `convolve_fft` of the left channels
and `convolve_fft` of the right channels. -/
theorem process_bypass_at_sentinels (st : EffectSettings ℝ) (sr : ℤ) (signal1 signal2 : List ℝ)
    (hlp : st.lowPassFreq = 20000) (hhp : st.highPassFreq = 20) :
    (∀ sr' : ℤ, process realComplex Real.rpow st sr' signal1 signal2
        = process realComplex Real.rpow st sr signal1 signal2) ∧
      (st.stereoWidth = 100 → st.dryWet = 100 → st.inputGain = 0 → st.impulseGain = 0 →
        st.outputGain = 0 → st.normalize = false →
        2 ≤ signal1.length → 2 ≤ signal2.length →
        ∃ l r, convolve_fft realComplex (channel_left signal1) (channel_left signal2) = some l ∧
          convolve_fft realComplex (channel_right signal1) (channel_right signal2) = some r ∧
          process realComplex Real.rpow st sr signal1 signal2 = some (interleave l r)) := by
  have hlp' : ¬ (st.lowPassFreq < 20000) := by rw [hlp]; exact lt_irrefl _
  have hhp' : ¬ (st.highPassFreq > 20) := by rw [hhp]; exact lt_irrefl _
  constructor
  · intro sr'
    simp only [process, if_neg hlp', if_neg hhp']
  · intro hw hdw hig himp hog hn h1 h2
    have hl1 : channel_left signal1 ≠ [] := by
      intro h0
      have := congrArg List.length h0
      simp only [channel_left_length, List.length_nil] at this
      omega
    have hr1 : channel_right signal1 ≠ [] := by
      intro h0
      have := congrArg List.length h0
      simp only [channel_right_length, List.length_nil] at this
      omega
    obtain ⟨l, hl, -⟩ := convolve_fft_length realComplex (channel_left signal1)
      (channel_left signal2) (Or.inl hl1)
    obtain ⟨r, hr, -⟩ := convolve_fft_length realComplex (channel_right signal1)
      (channel_right signal2) (Or.inl hr1)
    refine ⟨l, r, hl, hr, ?_⟩
    have hw' : ¬ (st.stereoWidth ≠ 100) := by simp [hw]
    simp only [process, hig, himp, hog, apply_gain_zero, hl, hr, if_neg hlp', if_neg hhp',
      if_neg hw', hdw, dry_wet_mix_full_wet, hn, Option.bind_eq_bind, Option.some_bind,
      Option.pure_def]
    rfl

/-- An instance of C16: one frame `(1, 2)` of dry signal and one frame `(1, 1)`
of impulse response give the output frame `(1, 2)`. -/
theorem process_bypass_at_sentinels_witness :
    (EffectSettings.mk (100 : ℝ) 0 0 0 20000 20 100 false).lowPassFreq = 20000 ∧
      (EffectSettings.mk (100 : ℝ) 0 0 0 20000 20 100 false).highPassFreq = 20 ∧
      process realComplex Real.rpow (EffectSettings.mk 100 0 0 0 20000 20 100 false) 44100
        [1, 2] [1, 1] = some [1, 2] := by
  obtain ⟨l, r, hl, hr, hp⟩ :=
    (process_bypass_at_sentinels (EffectSettings.mk 100 0 0 0 20000 20 100 false) 44100
      [1, 2] [1, 1] rfl rfl).2 rfl rfl rfl rfl rfl rfl (by simp) (by simp)
  refine ⟨rfl, rfl, ?_⟩
  have e1 : channel_left ([1, 2] : List ℝ) = [1] := by simp [channel_left, List.range_succ]
  have e2 : channel_left ([1, 1] : List ℝ) = [1] := by simp [channel_left, List.range_succ]
  have e3 : channel_right ([1, 2] : List ℝ) = [2] := by simp [channel_right, List.range_succ]
  have e4 : channel_right ([1, 1] : List ℝ) = [1] := by simp [channel_right, List.range_succ]
  rw [e1, e2, convolve_fft_eq_linear_convolution _ _ (by simp) (by simp),
    linear_convolution_unit] at hl
  rw [e3, e4, convolve_fft_eq_linear_convolution _ _ (by simp) (by simp),
    linear_convolution_unit] at hr
  rw [hp, ← Option.some.inj hl, ← Option.some.inj hr]
  simp [interleave, List.range_succ]

/-- C17: for two runs with the same settings, `stereoWidth = 100`, the same
sample rate and buffers of the same lengths: when the left channels of the dry
and impulse-response buffers agree, the left channel of the output (or the
failure of the run) is the same in both runs, whatever the right channels
hold; and symmetrically for the right channel. -/
theorem process_channel_independence (st : EffectSettings ℝ) (sr : ℤ)
    (s1 s2 s1' s2' : List ℝ) (hw : st.stereoWidth = 100)
    (hlen1 : s1'.length = s1.length) (hlen2 : s2'.length = s2.length) :
    (channel_left s1' = channel_left s1 → channel_left s2' = channel_left s2 →
        (process realComplex Real.rpow st sr s1' s2').map channel_left
          = (process realComplex Real.rpow st sr s1 s2).map channel_left) ∧
      (channel_right s1' = channel_right s1 → channel_right s2' = channel_right s2 →
        (process realComplex Real.rpow st sr s1' s2').map channel_right
          = (process realComplex Real.rpow st sr s1 s2).map channel_right) :=
  ⟨fun h1 h2 => process_left_independent realComplex Real.rpow st sr s1 s2 s1' s2' hw h1 h2
      hlen1 hlen2,
    fun h1 h2 => process_right_independent realComplex Real.rpow st sr s1 s2 s1' s2' hw h1 h2
      hlen1 hlen2⟩

/-- An instance of C17, with the default settings: the dry frames `(1, 2)` and
`(1, 5)` and the impulse-response frames `(1, 1)` and `(1, 7)` share their left
samples and give the same left output. -/
theorem process_channel_independence_witness :
    (EffectSettings.mk (50 : ℝ) 0 0 0 20000 20 100 true).stereoWidth = 100 ∧
      ([1, 5] : List ℝ).length = ([1, 2] : List ℝ).length ∧
      ([1, 7] : List ℝ).length = ([1, 1] : List ℝ).length ∧
      channel_left ([1, 5] : List ℝ) = channel_left [1, 2] ∧
      channel_left ([1, 7] : List ℝ) = channel_left [1, 1] ∧
      (process realComplex Real.rpow (EffectSettings.mk 50 0 0 0 20000 20 100 true) 44100
          [1, 5] [1, 7]).map channel_left
        = (process realComplex Real.rpow (EffectSettings.mk 50 0 0 0 20000 20 100 true) 44100
          [1, 2] [1, 1]).map channel_left := by
  have e1 : channel_left ([1, 5] : List ℝ) = channel_left [1, 2] := by simp [channel_left, List.range_succ]
  have e2 : channel_left ([1, 7] : List ℝ) = channel_left [1, 1] := by simp [channel_left, List.range_succ]
  exact ⟨rfl, rfl, rfl, e1, e2,
    (process_channel_independence (EffectSettings.mk 50 0 0 0 20000 20 100 true) 44100
      [1, 2] [1, 1] [1, 5] [1, 7] rfl rfl rfl).1 e1 e2⟩

/-! ## `double` arithmetic: IEEE 754 rounding and the rounded loops -/

section
variable {R : Type} [LinearOrderedField R] [FloorRing R]

theorem round_binary64_zero : round_binary64 (0 : R) = 0 := by
  simp [round_binary64]

theorem round_half_even_eq (y : R) (f : ℤ) (h1 : (f : R) ≤ y) (h2 : y < f + 1) :
    round_half_even y
      = if y - f < 1 / 2 then f else if 1 / 2 < y - f then f + 1
        else if f % 2 = 0 then f else f + 1 := by
  have hf : ⌊y⌋ = f := Int.floor_eq_iff.mpr ⟨h1, h2⟩
  simp only [round_half_even, hf]

theorem round_binary64_eq (x : R) (e M : ℤ) (h1 : (2 : R) ^ e ≤ |x|)
    (h2 : |x| < (2 : R) ^ (e + 1)) (he : -1022 ≤ e)
    (hM : round_half_even (x / (2 : R) ^ (e - 52)) = M) :
    round_binary64 x = (M : R) * (2 : R) ^ (e - 52) := by
  have hpos : 0 < |x| := lt_of_lt_of_le (zpow_pos (by norm_num) e) h1
  have hx : x ≠ 0 := abs_pos.mp hpos
  have hlog : Int.log 2 |x| = e := by
    apply le_antisymm
    · have := (Int.lt_zpow_iff_log_lt (b := 2) (by norm_num) hpos).mp (by exact_mod_cast h2)
      omega
    · exact (Int.zpow_le_iff_le_log (b := 2) (by norm_num) hpos).mp (by exact_mod_cast h1)
  simp only [round_binary64, if_neg hx, hlog, max_eq_left he, hM]

theorem round_binary64_pos_eq (x : R) (e M : ℤ) (h1 : (2 : R) ^ e ≤ x)
    (h2 : x < (2 : R) ^ (e + 1)) (he : -1022 ≤ e)
    (hM : round_half_even (x / (2 : R) ^ (e - 52)) = M) :
    round_binary64 x = (M : R) * (2 : R) ^ (e - 52) := by
  have hx : 0 < x := lt_of_lt_of_le (zpow_pos (by norm_num) e) h1
  exact round_binary64_eq x e M (by rw [abs_of_pos hx]; exact h1)
    (by rw [abs_of_pos hx]; exact h2) he hM

theorem round_binary64_neg_eq (x : R) (e M : ℤ) (h1 : (2 : R) ^ e ≤ -x)
    (h2 : -x < (2 : R) ^ (e + 1)) (he : -1022 ≤ e)
    (hM : round_half_even (x / (2 : R) ^ (e - 52)) = M) :
    round_binary64 x = (M : R) * (2 : R) ^ (e - 52) := by
  have hx : x < 0 := by
    have : 0 < -x := lt_of_lt_of_le (zpow_pos (by norm_num) e) h1
    linarith
  exact round_binary64_eq x e M (by rw [abs_of_neg hx]; exact h1)
    (by rw [abs_of_neg hx]; exact h2) he hM

end

section
variable {R K : Type} [LinearOrderedField R] [Field K]

theorem apply_stereo_width_rounded_id (left right : List R) (width : R) :
    apply_stereo_width_rounded id left right width = apply_stereo_width left right width := by
  induction left generalizing right with
  | nil => simp [apply_stereo_width_rounded, apply_stereo_width]
  | cons l left ih =>
    cases right with
    | nil => simp [apply_stereo_width_rounded, apply_stereo_width]
    | cons r right => simp [apply_stereo_width_rounded, apply_stereo_width, ih]

theorem apply_gain_rounded_id (pow : R → R → R) (gain : R) (signal : List R) :
    apply_gain_rounded id pow gain signal = apply_gain pow gain signal := by
  simp [apply_gain_rounded, apply_gain]

theorem apply_lowpass_filter_rounded_id (C : StdComplex R K) (signal : List R) (cutoffFreq : R)
    (sampleRate : ℤ) :
    apply_lowpass_filter_rounded id C signal cutoffFreq sampleRate
      = apply_lowpass_filter C signal cutoffFreq sampleRate := by
  simp [apply_lowpass_filter_rounded, apply_lowpass_filter]

theorem apply_highpass_filter_rounded_id (C : StdComplex R K) (signal : List R) (cutoffFreq : R)
    (sampleRate : ℤ) :
    apply_highpass_filter_rounded id C signal cutoffFreq sampleRate
      = apply_highpass_filter C signal cutoffFreq sampleRate := by
  simp [apply_highpass_filter_rounded, apply_highpass_filter]

end

theorem rounded_lowpass_getD (fl : ℝ → ℝ) (x : List ℝ) (c : ℝ) (sr : ℤ) {n : ℕ}
    (hn : n < x.length) :
    (apply_lowpass_filter_rounded fl realComplex x c sr).getD n 0
      = fl ((∑ k in Finset.range x.length,
            (if fl (fl ((k : ℝ) * (sr : ℝ)) / (x.length : ℝ)) > c then 0
              else (fft realComplex.twiddle (x.map realComplex.ofReal)).getD k 0)
            * (realComplex.twiddle x.length)⁻¹ ^ (k * n)) / (x.length : ℂ)).re := by
  rw [apply_lowpass_filter_rounded, getD_map_range _ _ hn, ifft_mask_getD _ _ hn]
  rfl

theorem rounded_highpass_getD (fl : ℝ → ℝ) (x : List ℝ) (c : ℝ) (sr : ℤ) {n : ℕ}
    (hn : n < x.length) :
    (apply_highpass_filter_rounded fl realComplex x c sr).getD n 0
      = fl ((∑ k in Finset.range x.length,
            (if fl (fl ((k : ℝ) * (sr : ℝ)) / (x.length : ℝ)) < c then 0
              else (fft realComplex.twiddle (x.map realComplex.ofReal)).getD k 0)
            * (realComplex.twiddle x.length)⁻¹ ^ (k * n)) / (x.length : ℂ)).re := by
  rw [apply_highpass_filter_rounded, getD_map_range _ _ hn, ifft_mask_getD _ _ hn]
  rfl

end AudioConvolution
